import Mathlib

/-!
Verification of the trajectory-segmentation / dual-stream reconciliation engine
(`advanced_action_detection.py`, `hierarchical_detection_system.py`,
`unified_pipeline.py`) against its natural-language specification.

Embedding conventions
---------------------
* All floating-point values are embedded as exact rationals (`ℚ`).
* Python dicts describing action events become the `AEvent` structure; a
  kind-specific key that may be absent (`rotation_degrees`, `tilt_degrees`,
  `net_displacement`, `direction`) becomes an `Option` field whose `none`
  models the key being absent.
* Action-name strings (`'push'`, `'twist_open'`, `'open'`, ...) become the
  closed enumeration `AKind`; constructors `copen` / `cclose` stand for the
  source strings `'open'` / `'close'` (container open / close), which cannot
  be Lean identifiers.
* The per-timestep numpy arrays (`positions`, `velocities`, `speeds`,
  `openness`, `timestamps`) of length `n` are embedded as total functions
  `ℕ → _` together with the explicit length `n`; every access the source
  performs is guarded by an index bound, so the functions' values at or
  beyond `n` are never consulted.  The per-frame records stay a `List Frame`.
* Index-walking `while` loops become fuel-indexed structural recursions; the
  fuel passed by each top-level wrapper is the array length (plus one), which
  suffices because every loop iteration strictly advances its cursor.
* Angles are carried in degrees throughout.  The source converts the incoming
  degree-valued orientation angles to radians (`np.radians`) before
  unwrapping/differentiating and converts back (`np.degrees`) when reporting;
  scaling by the constant factor pi/180 commutes with unwrapping and with the
  gradient, so the degree-unit embedding is an exact reparametrisation:
  `np.unwrap` with period 2*pi becomes unwrapping with period 360, the
  accumulated-rotation threshold `np.radians(40)` becomes `40`, the pour tilt
  threshold `np.radians(30)` becomes `30`, and the reported
  `rotation_degrees`/`tilt_degrees` need no conversion.  Rotation *rates*
  produced by `np.gradient` are then in degrees/second, where the source's
  twist-rate trigger `TWIST_RATE_THRESHOLD = 2.0` rad/s equals the irrational
  360/pi deg/s; the rate trigger is therefore a parameter `rateThresh` of the
  rotation detectors (the half-trigger extension threshold is
  `rateThresh / 2` exactly as in the source), and every theorem about them is
  proved for all values of that parameter.
* `np.linalg.norm(v) < c` (with `c ≥ 0`) is embedded as the equivalent
  squared comparison `sqNorm v < c^2`, avoiding square roots.
-/

/- Batteries marks the rational-number operations `@[irreducible]`, which
blocks elaborator-side evaluation in `decide`; re-allow unfolding them for
this file so that concrete runs of the embedded detectors can be settled by
`decide`.  This is an elaboration setting only; kernel checking is
unaffected. -/
set_option allowUnsafeReducibility true

attribute [local semireducible] Rat.add Rat.sub Rat.mul Rat.inv

set_option maxRecDepth 100000

/-- Direction tag of a twist event: the source strings `'clockwise'` /
`'counter-clockwise'`. -/
inductive TwistDir where
  | clockwise
  | counterClockwise
deriving DecidableEq, Repr

/-- The closed enumeration of action-name strings produced by the detectors.
`copen`/`cclose` are the container interactions, source strings
`'open'`/`'close'`. -/
inductive AKind where
  | push
  | pull
  | slide
  | lift
  | place
  | twist_open
  | twist_close
  | pour
  | copen
  | cclose
deriving DecidableEq, Repr

/-- One action-event dict as produced by the detectors
(`advanced_action_detection.py`).  Optional fields model dict keys that are
only present for some kinds. -/
structure AEvent where
  action : AKind
  obj : String
  start_time : ℚ
  end_time : ℚ
  duration : ℚ
  confidence : ℚ
  rotation_degrees : Option ℚ := none
  direction : Option TwistDir := none
  tilt_degrees : Option ℚ := none
  net_displacement : Option ℚ := none
deriving DecidableEq, Repr

/-- A detected-object record of one frame (`frame['objects']['objects'][k]`):
class name, optional confidence (the source defaults a missing key to `1.0`),
bounding box. -/
structure Obj where
  cls : String
  confidence : Option ℚ := none
  bbox : List ℚ := []
deriving DecidableEq, Repr

/-- Hand-orientation record (`hands[0]['orientation']`), angles in degrees. -/
structure Orient where
  roll : ℚ
  pitch : ℚ
  yaw : ℚ
  palm_normal : ℚ × ℚ × ℚ
deriving DecidableEq, Repr

/-- One hand record of a frame (`frame['hands']['hands'][k]`). -/
structure Hand where
  openness : ℚ
  orientation : Option Orient := none
deriving DecidableEq, Repr

/-- One frame of the extraction file, restricted to the fields the detectors
read. -/
structure Frame where
  timestamp : ℚ
  hands_detected : Bool := false
  hands : List Hand := []
  objects_detected : Bool := false
  objects : List Obj := []
deriving DecidableEq, Repr, Inhabited

/-- Squared Euclidean norm of a 3-vector; `np.linalg.norm v < c` is embedded
as `sqNorm v < c^2`. -/
def sqNorm (v : ℚ × ℚ × ℚ) : ℚ := v.1 * v.1 + v.2.1 * v.2.1 + v.2.2 * v.2.2

namespace AdvancedActionDetector

/-! ## Temporal Merger (`_merge_close_actions`) -/

/-- The `MERGE_WINDOWS` dict of `_merge_close_actions`: `none` models a kind
whose string is absent from the dict. -/
def MERGE_WINDOWS : AKind → Option ℚ
  | .twist_open => some 3
  | .twist_close => some 3
  | .pour => some 2
  | .lift => some 5
  | .place => some 2
  | .copen => some 5
  | .cclose => some 5
  | _ => none

/-- `MERGE_WINDOWS.get(action_type, 3.0)`. -/
def mergeWindow (k : AKind) : ℚ := (MERGE_WINDOWS k).getD 3

/-- The merge condition of the inner loop of `_merge_close_actions`:
same action string and the next start within the merge window of the
accumulator's end. -/
def mergeCond (cur next : AEvent) : Prop :=
  cur.action = next.action ∧ next.start_time - cur.end_time < mergeWindow cur.action

instance (cur next : AEvent) : Decidable (mergeCond cur next) := by
  unfold mergeCond; infer_instance

/-- One merge step of `_merge_close_actions`: extend the accumulator's
`end_time` to the next event's, recompute `duration` from the two timestamps,
and accumulate `rotation_degrees` when both dicts carry that key. -/
def mergeInto (cur next : AEvent) : AEvent :=
  { cur with
    end_time := next.end_time
    duration := next.end_time - cur.start_time
    rotation_degrees :=
      match cur.rotation_degrees, next.rotation_degrees with
      | some r, some s => some (r + s)
      | _, _ => cur.rotation_degrees }

/-- The accumulation loop of `_merge_close_actions`: the inner `while`
absorbs successive mergeable events into `cur`; on the first non-mergeable
event the accumulator is emitted and scanning restarts there (outer loop
`i = j`). -/
def mergeLoop (cur : AEvent) : List AEvent → List AEvent
  | [] => [cur]
  | b :: rest =>
    if mergeCond cur b then mergeLoop (mergeInto cur b) rest
    else cur :: mergeLoop b rest

/-- `_merge_close_actions`. -/
def merge_close_actions : List AEvent → List AEvent
  | [] => []
  | a :: rest => mergeLoop a rest

/-! ## Stable sort by start time (`all_actions.sort(key=lambda x: x['start_time'])`)

Python's `list.sort` is a stable ascending sort; a stable ascending sort of a
list is unique, so the structural insertion sort below produces exactly the
same list. -/

/-- Insert an event into an already-sorted accumulator *after* all events
with `start_time ≤` its own, preserving the original order of equal keys. -/
def insertByStart (x : AEvent) : List AEvent → List AEvent
  | [] => [x]
  | y :: ys =>
    if y.start_time ≤ x.start_time then y :: insertByStart x ys
    else x :: y :: ys

/-- Stable ascending sort by `start_time`, the embedding of
`sort(key=lambda x: x['start_time'])`. -/
def sortByStart (l : List AEvent) : List AEvent :=
  l.foldl (fun acc x => insertByStart x acc) []

/-! ## Container Detector (`_detect_containers`) -/

/-- One entry of the `container_detections[obj_class]` list. -/
structure Det where
  frame : ℕ
  timestamp : ℚ
  bbox : List ℚ
  confidence : ℚ
deriving DecidableEq, Repr

/-- One entry of the returned `containers` list. -/
structure ContainerDet where
  ctype : String
  frame : ℕ
  bbox : List ℚ
  timestamp : ℚ
deriving DecidableEq, Repr

/-- The container vocabulary `['refrigerator', 'oven', 'microwave', 'door']`. -/
def containerVocab : List String := ["refrigerator", "oven", "microwave", "door"]

/-- Append a detection to its class's list in the insertion-ordered
association list, modelling Python dict insertion semantics. -/
def upsertDet (key : String) (d : Det) :
    List (String × List Det) → List (String × List Det)
  | [] => [(key, [d])]
  | (k, ds) :: rest =>
    if k = key then (k, ds ++ [d]) :: rest else (k, ds) :: upsertDet key d rest

/-- First pass of `_detect_containers`: collect, per container class, the
detections with confidence at least `MIN_CONTAINER_CONFIDENCE = 0.5` (a
missing confidence key defaults to `1.0`), keyed in first-insertion order. -/
def collectDets (frames : List Frame) : List (String × List Det) :=
  frames.enum.foldl
    (fun acc p =>
      if p.2.objects_detected then
        p.2.objects.foldl
          (fun acc obj =>
            if obj.cls ∈ containerVocab ∧ obj.confidence.getD 1 ≥ 1/2 then
              upsertDet obj.cls ⟨p.1, p.2.timestamp, obj.bbox, obj.confidence.getD 1⟩ acc
            else acc)
          acc
      else acc)
    []

/-- `avg_gap`: mean difference of consecutive frame indices, `0` when there
is at most one detection. -/
def avgGap (idxs : List ℕ) : ℚ :=
  let gaps := (idxs.zip idxs.tail).map (fun p => (p.2 : ℚ) - (p.1 : ℚ))
  if gaps = [] then 0 else gaps.sum / gaps.length

/-- The acceptance test of `_detect_containers`: at least
`MIN_CONTAINER_FRAMES = 20` detections, at least `MIN_PERCENTAGE = 0.10` of
all frames, and average consecutive-detection gap below 10 frames. -/
def containerAccept (count totalFrames : ℕ) (avg : ℚ) : Prop :=
  20 ≤ count ∧ (1 : ℚ)/10 ≤ (count : ℚ) / (totalFrames : ℚ) ∧ avg < 10

instance (c t : ℕ) (avg : ℚ) : Decidable (containerAccept c t avg) := by
  unfold containerAccept; infer_instance

/-- `_detect_containers`: keep, class by class in dict order, every detection
of each accepted class; rejected classes contribute nothing. -/
def detect_containers (frames : List Frame) : List ContainerDet :=
  let total := frames.length
  (collectDets frames).foldl
    (fun acc p =>
      if containerAccept p.2.length total (avgGap (p.2.map (·.frame))) then
        acc ++ p.2.map (fun d => ⟨p.1, d.frame, d.bbox, d.timestamp⟩)
      else acc)
    []

/-! ## Container Interaction Detector (`_detect_container_interactions`)

The source's `positions` and `openness` parameters are unused by the body and
are omitted here. -/

/-- Minimum of a nonempty list given its head. -/
def listMin (x : ℚ) (xs : List ℚ) : ℚ := xs.foldl min x

/-- Maximum of a nonempty list given its head. -/
def listMax (x : ℚ) (xs : List ℚ) : ℚ := xs.foldl max x

/-- `np.argmin(np.abs(timestamps - v))` over indices below `n`: the first
index minimising the absolute distance. -/
def argminAbsDist (n : ℕ) (t : ℕ → ℚ) (v : ℚ) : ℕ :=
  (List.range n).foldl (fun best i => if |t i - v| < |t best - v| then i else best) 0

/-- Length of the forward run `while j < L and z j < -0.3` starting at `j`;
the source accumulates `duration += 1/30` per step, so the accumulated
duration is this count divided by 30. -/
def openRunLen (L : ℕ) (z : ℕ → ℚ) : ℕ → ℕ → ℕ
  | 0, _ => 0
  | fuel + 1, j =>
    if j < L ∧ z j < -3/10 then openRunLen L z fuel (j + 1) + 1 else 0

/-- Length of the backward run `while j >= 0 and z j > 0.3` starting at `j`
and stepping down; the final (possibly `-1`-valued) cursor clamped by
`max(j, 0)` is `j + 1 - run length` in saturating `ℕ` subtraction. -/
def closeRunLen (z : ℕ → ℚ) : ℕ → ℕ
  | 0 => if z 0 > 3/10 then 1 else 0
  | j + 1 => if z (j + 1) > 3/10 then closeRunLen z j + 1 else 0

/-- The `# Find FIRST pull (open)` loop: scan `i` upward over
`range(L - 5)`; on the first index with depth velocity below `-0.5` and speed
above `1.0` whose run lasts longer than `0.2 s` (counted in 1/30-second
frames), emit the single `'open'` event and stop. -/
def findOpen (L : ℕ) (z s pt : ℕ → ℚ) (ctype : String) : ℕ → ℕ → List AEvent
  | 0, _ => []
  | fuel + 1, i =>
    if i < L - 5 then
      if z i < -1/2 ∧ s i > 1 then
        let cnt := openRunLen L z L i
        if (cnt : ℚ) / 30 > 1/5 then
          [{ action := .copen, obj := ctype, start_time := pt i,
             end_time := pt (min (i + cnt) (L - 1)),
             duration := (cnt : ℚ) / 30, confidence := 9/10 }]
        else findOpen L z s pt ctype fuel (i + 1)
      else findOpen L z s pt ctype fuel (i + 1)
    else []

/-- The `# Find LAST push (close)` loop: scan `i` downward over
`range(L - 1, 5, -1)`; on the first index with depth velocity above `0.5` and
speed above `0.8` whose backward run lasts longer than `0.15 s`, emit the
single `'close'` event and stop. -/
def findClose (L : ℕ) (z s pt : ℕ → ℚ) (ctype : String) : ℕ → ℕ → List AEvent
  | 0, _ => []
  | fuel + 1, i =>
    if 5 < i ∧ i ≤ L - 1 then
      if z i > 1/2 ∧ s i > 4/5 then
        let cnt := closeRunLen z i
        if (cnt : ℚ) / 30 > 3/20 then
          [{ action := .cclose, obj := ctype, start_time := pt (i - cnt),
             end_time := pt i,
             duration := (cnt : ℚ) / 30, confidence := 17/20 }]
        else findClose L z s pt ctype fuel (i - 1)
      else findClose L z s pt ctype fuel (i - 1)
    else []

/-- `_detect_container_interactions`: restrict to the window between the
first and last container timestamps (nearest trajectory indices), then find
the first sustained pull (`'open'`) and the last sustained push (`'close'`). -/
def detect_container_interactions (n : ℕ) (velocities : ℕ → ℚ × ℚ × ℚ)
    (speeds timestamps : ℕ → ℚ) (containers : List ContainerDet) : List AEvent :=
  match containers with
  | [] => []
  | c0 :: cRest =>
    let start_time := listMin c0.timestamp (cRest.map (·.timestamp))
    let end_time := listMax c0.timestamp (cRest.map (·.timestamp))
    let s := argminAbsDist n timestamps start_time
    let e := argminAbsDist n timestamps end_time
    let L := e + 1 - s
    let z : ℕ → ℚ := fun k => (velocities (s + k)).2.2
    let sp : ℕ → ℚ := fun k => speeds (s + k)
    let pt : ℕ → ℚ := fun k => timestamps (s + k)
    findOpen L z sp pt c0.ctype L 0 ++ findClose L z sp pt c0.ctype L (L - 1)

/-! ## Rotational Manipulation Detector
(`_extract_orientations`, `_detect_rotation_actions`, `_detect_twist`,
`_detect_pour`, `_get_object_near_hand`) -/

/-- `_extract_orientations`: `None` when the frame has no detected hands, an
empty hand list, or a first hand without an `'orientation'` key. -/
def extract_orientations (frames : List Frame) : List (Option Orient) :=
  frames.map (fun f =>
    if f.hands_detected then
      match f.hands with
      | [] => none
      | h :: _ => h.orientation
    else none)

/-- `_get_object_near_hand`: prefer a bottle/cup/wine-glass class, else the
first detected object, else `None`. -/
def get_object_near_hand (f : Frame) : Option String :=
  if f.objects_detected then
    match f.objects.find? (fun o => o.cls ∈ ["bottle", "cup", "wine glass"]) with
    | some o => some o.cls
    | none => f.objects.head?.map (·.cls)
  else none

/-- Componentwise difference of 3-vectors. -/
def vsub (a b : ℚ × ℚ × ℚ) : ℚ × ℚ × ℚ :=
  (a.1 - b.1, a.2.1 - b.2.1, a.2.2 - b.2.2)

/-- Recursive step of `np.unwrap` in degree units (period 360,
discontinuity threshold 180): each new output extends the previous one by the
raw difference plus a correction that is a multiple of 360. -/
def npUnwrapGo (prevIn prevOut : ℚ) : List ℚ → List ℚ
  | [] => []
  | x :: rest =>
    let dd := x - prevIn
    let m := (dd + 180) - 360 * (⌊(dd + 180) / 360⌋ : ℚ) - 180
    let m' := if m = -180 ∧ dd > 0 then 180 else m
    let corr := if |dd| < 180 then 0 else m' - dd
    let out := prevOut + dd + corr
    out :: npUnwrapGo x out rest

/-- `np.unwrap` in degree units; see the angle-unit convention in the file
header. -/
def npUnwrap : List ℚ → List ℚ
  | [] => []
  | a :: rest => a :: npUnwrapGo a a rest

/-- `np.gradient(f, t)` (default `edge_order=1`) over indices below `m`:
one-sided differences at the two edges, the second-order nonuniform central
difference inside. -/
def npGradient (m : ℕ) (f t : ℕ → ℚ) (i : ℕ) : ℚ :=
  if i = 0 then (f 1 - f 0) / (t 1 - t 0)
  else if i = m - 1 then (f (m-1) - f (m-2)) / (t (m-1) - t (m-2))
  else
    let hd := t i - t (i-1)
    let hs := t (i+1) - t i
    (-hs / (hd * (hd + hs))) * f (i-1) + ((hs - hd) / (hd * hs)) * f i
      + (hd / (hs * (hd + hs))) * f (i+1)

/-- Length of the window-extension run of `_detect_twist`:
`while j < m and abs(rate j) > T * 0.5`. -/
def twistRunLen (T : ℚ) (m : ℕ) (rate : ℕ → ℚ) : ℕ → ℕ → ℕ
  | 0, _ => 0
  | fuel + 1, j =>
    if j < m ∧ |rate j| > T / 2 then twistRunLen T m rate fuel (j + 1) + 1 else 0

/-- The scanning loop of `_detect_twist` over the orientation-valid
subsequence (length `m`).  `T` is `TWIST_RATE_THRESHOLD` (see the file
header), `roll` the unwrapped roll angles in degrees, `opn`/`ts`/`pos` the
openness/timestamp/position signals restricted to the valid indices, and
`vIdx` maps a valid-subsequence index to its global frame index.  The
stationarity test `np.linalg.norm(end_pos - start_pos) < 0.3` is embedded as
the equivalent `sqNorm < (3/10)^2 = 9/100`. -/
def twistScan (T : ℚ) (m : ℕ) (roll rate opn ts : ℕ → ℚ) (pos : ℕ → ℚ × ℚ × ℚ)
    (frames : ℕ → Frame) (vIdx : ℕ → ℕ) : ℕ → ℕ → List AEvent
  | 0, _ => []
  | fuel + 1, i =>
    if i < m - 10 then
      if |rate i| > T ∧ opn i < 3/10 then
        let dir : TwistDir := if rate i > 0 then .clockwise else .counterClockwise
        let j := i + twistRunLen T m rate m i
        let e := min j (m - 1)
        let dur := ts e - ts i
        let rot := |roll e - roll i|
        if dur > 3/10 ∧ rot > 40 ∧ sqNorm (vsub (pos e) (pos i)) < 9/100 then
          { action := if dir = .counterClockwise then .twist_open else .twist_close,
            obj := (get_object_near_hand (frames (vIdx i))).getD "unknown",
            start_time := ts i, end_time := ts e, duration := dur,
            rotation_degrees := some rot, direction := some dir,
            confidence := 17/20 } :: twistScan T m roll rate opn ts pos frames vIdx fuel j
        else twistScan T m roll rate opn ts pos frames vIdx fuel (i + 1)
      else twistScan T m roll rate opn ts pos frames vIdx fuel (i + 1)
    else []

/-- `_detect_twist`, entered at cursor 0 with fuel `m`. -/
def detect_twist (T : ℚ) (m : ℕ) (roll rate opn ts : ℕ → ℚ)
    (pos : ℕ → ℚ × ℚ × ℚ) (frames : ℕ → Frame) (vIdx : ℕ → ℕ) : List AEvent :=
  twistScan T m roll rate opn ts pos frames vIdx m 0

/-- Length of the window-extension run of `_detect_pour`:
`while j < m and pitch j < -threshold * 0.7` with threshold 30 degrees. -/
def pourRunLen (m : ℕ) (pitch : ℕ → ℚ) : ℕ → ℕ → ℕ
  | 0, _ => 0
  | fuel + 1, j =>
    if j < m ∧ pitch j < -21 then pourRunLen m pitch fuel (j + 1) + 1 else 0

/-- The scanning loop of `_detect_pour` (the source's `pitch_rate` parameter
is unused by its body and omitted).  The near-stationarity test
`np.linalg.norm(pos e - pos i) / duration < 0.5` is embedded, for the
positive durations admitted by the conjoined `duration > 0.5` test, as the
equivalent `sqNorm < (duration/2)^2`. -/
def pourScan (m : ℕ) (pitch ts : ℕ → ℚ) (pos : ℕ → ℚ × ℚ × ℚ)
    (frames : ℕ → Frame) (vIdx : ℕ → ℕ) : ℕ → ℕ → List AEvent
  | 0, _ => []
  | fuel + 1, i =>
    if i < m - 15 then
      if pitch i < -30 then
        let j := i + pourRunLen m pitch m i
        let e := min j (m - 1)
        let dur := ts e - ts i
        if e > i + 1 ∧ dur > 1/2 ∧ sqNorm (vsub (pos e) (pos i)) < (dur / 2) ^ 2 then
          { action := .pour,
            obj := (get_object_near_hand (frames (vIdx i))).getD "unknown",
            start_time := ts i, end_time := ts e, duration := dur,
            tilt_degrees := some |pitch i|,
            confidence := 4/5 } :: pourScan m pitch ts pos frames vIdx fuel j
        else pourScan m pitch ts pos frames vIdx fuel (i + 1)
      else pourScan m pitch ts pos frames vIdx fuel (i + 1)
    else []

/-- `_detect_pour`, entered at cursor 0 with fuel `m`. -/
def detect_pour (m : ℕ) (pitch ts : ℕ → ℚ) (pos : ℕ → ℚ × ℚ × ℚ)
    (frames : ℕ → Frame) (vIdx : ℕ → ℕ) : List AEvent :=
  pourScan m pitch ts pos frames vIdx m 0

/-- `_detect_rotation_actions`: early-return empty when no frame carries
orientation or fewer than 10 do; otherwise unwrap the degree-valued roll and
pitch angles of the orientation-valid subsequence, differentiate them against
the corresponding timestamps, and run the twist and pour detectors on that
subsequence.  (The source's `velocities` and `speeds` parameters are unused
by its body and omitted.) -/
def detect_rotation_actions (T : ℚ) (positions : ℕ → ℚ × ℚ × ℚ)
    (openness timestamps : ℕ → ℚ) (orientations : List (Option Orient))
    (frames : ℕ → Frame) : List AEvent :=
  if orientations.all (·.isNone) then []
  else
    let valid : List ℕ :=
      (List.range orientations.length).filter (fun i => (orientations.getD i none).isSome)
    let m := valid.length
    if m < 10 then []
    else
      let vIdx : ℕ → ℕ := fun k => valid.getD k 0
      let orient : ℕ → Orient := fun k =>
        match orientations.getD (vIdx k) none with
        | some o => o
        | none => ⟨0, 0, 0, (0, 0, 0)⟩
      let roll : List ℚ := npUnwrap ((List.range m).map (fun k => (orient k).roll))
      let pitch : List ℚ := npUnwrap ((List.range m).map (fun k => (orient k).pitch))
      let rollF : ℕ → ℚ := fun k => roll.getD k 0
      let pitchF : ℕ → ℚ := fun k => pitch.getD k 0
      let tsv : ℕ → ℚ := fun k => timestamps (vIdx k)
      let opnv : ℕ → ℚ := fun k => openness (vIdx k)
      let posv : ℕ → ℚ × ℚ × ℚ := fun k => positions (vIdx k)
      let rollRate : ℕ → ℚ := npGradient m rollF tsv
      detect_twist T m rollF rollRate opnv tsv posv frames vIdx
        ++ detect_pour m pitchF tsv posv frames vIdx

/-! ## Linear Manipulation Detector (`_detect_linear_manipulation`) -/

/-- The stop-confirmation count of the push/pull tracking loop:
`for k in range(j, min(j+30, n))` count the indices whose depth velocity is
small and speed low. -/
def stoppedCount (n : ℕ) (vel : ℕ → ℚ × ℚ × ℚ) (speed : ℕ → ℚ) (j : ℕ) : ℕ :=
  ((List.range (min (j + 30) n - j)).map (fun d => j + d)).countP
    (fun k => |(vel k).2.2| < 1/5 ∧ speed k < 3/10)

/-- The push/pull tracking loop: advance `j` while below `n - 1` and within
90 samples of the window start, stopping early only when motion has stopped
(small depth velocity and speed) and stays stopped for more than 20 of the
next 30 samples. -/
def ppRun (n : ℕ) (vel : ℕ → ℚ × ℚ × ℚ) (speed : ℕ → ℚ) (start : ℕ) :
    ℕ → ℕ → ℕ
  | 0, j => j
  | fuel + 1, j =>
    if j < n - 1 ∧ j < start + 90 then
      if |(vel j).2.2| < 1/5 ∧ speed j < 3/10 ∧ stoppedCount n vel speed j > 20 then j
      else ppRun n vel speed start fuel (j + 1)
    else j

/-- The slide tracking loop: `while j < n and abs(vel_x j) > 0.2`. -/
def slideRun (n : ℕ) (vel : ℕ → ℚ × ℚ × ℚ) : ℕ → ℕ → ℕ
  | 0, j => j
  | fuel + 1, j =>
    if j < n ∧ |(vel j).1| > 1/5 then slideRun n vel fuel (j + 1) else j

/-- The lift tracking loop: `while i < n and vel_y i < -0.3` (the source
advances the outer cursor `i` itself here). -/
def liftRun (n : ℕ) (vel : ℕ → ℚ × ℚ × ℚ) : ℕ → ℕ → ℕ
  | 0, i => i
  | fuel + 1, i =>
    if i < n ∧ (vel i).2.1 < -3/10 then liftRun n vel fuel (i + 1) else i

/-- The place tracking loop: `while j < n and vel_y j > 0.15`. -/
def placeRun (n : ℕ) (vel : ℕ → ℚ × ℚ × ℚ) : ℕ → ℕ → ℕ
  | 0, j => j
  | fuel + 1, j =>
    if j < n ∧ (vel j).2.1 > 3/20 then placeRun n vel fuel (j + 1) else j

/-- `max(openness[j:j+10])`: maximum of the 10 openness samples from `j`. -/
def maxRange (f : ℕ → ℚ) (j cnt : ℕ) : ℚ :=
  ((List.range cnt).map (fun d => f (j + d))).foldl max (f j)

/-- The PLACE branch of `_detect_linear_manipulation`, checked at the
(possibly lift-advanced) cursor `i'`; `scan` is the continuation of the
outer loop with one unit of fuel consumed.  Failing any test falls out to
`i' + 1`, the loop's final `i += 1`. -/
def placeBranch (n : ℕ) (vel : ℕ → ℚ × ℚ × ℚ) (opn ts : ℕ → ℚ)
    (scan : ℕ → List AEvent) (i' : ℕ) : List AEvent :=
  if (vel i').2.1 > 3/10 ∧ opn i' < 1/2 ∧ |(vel i').2.2| < 2/5 then
    let j := placeRun n vel n i'
    if j < n - 10 then
      if maxRange opn j 10 - opn j > 1/20 then
        { action := .place, obj := "unknown", start_time := ts i',
          end_time := ts (min (j + 10) (n - 1)),
          duration := ts (min (j + 10) (n - 1)) - ts i',
          confidence := 7/10 } :: scan (j + 10)
      else scan (i' + 1)
    else scan (i' + 1)
  else scan (i' + 1)

/-- The LIFT branch of `_detect_linear_manipulation`.  The source advances
the outer cursor `i` itself in the lift `while` loop, so a triggered but
unemitted lift falls through to the PLACE check at the *advanced* cursor. -/
def liftBranch (n : ℕ) (vel : ℕ → ℚ × ℚ × ℚ) (speed opn ts : ℕ → ℚ)
    (scan : ℕ → List AEvent) (i : ℕ) : List AEvent :=
  if (vel i).2.1 < -1/2 ∧ opn i < 3/10 ∧ speed i > 1/2 then
    let i' := liftRun n vel n i
    let e := min i' (n - 1)
    if e - i > 5 then
      { action := .lift, obj := "unknown", start_time := ts i,
        end_time := ts e, duration := ts e - ts i,
        confidence := 3/4 } :: scan i'
    else placeBranch n vel opn ts scan i'
  else placeBranch n vel opn ts scan i

/-- The SLIDE branch of `_detect_linear_manipulation`. -/
def slideBranch (n : ℕ) (vel : ℕ → ℚ × ℚ × ℚ) (speed opn ts : ℕ → ℚ)
    (scan : ℕ → List AEvent) (i : ℕ) : List AEvent :=
  if |(vel i).1| > 2/5 ∧ |(vel i).2.1| < 3/10 ∧ |(vel i).2.2| < 2/5 then
    let j := slideRun n vel n i
    let e := min j (n - 1)
    let dur := ts e - ts i
    if dur > 3/10 ∧ e - i > 5 then
      { action := .slide, obj := "unknown", start_time := ts i,
        end_time := ts e, duration := dur,
        confidence := 7/10 } :: scan j
    else liftBranch n vel speed opn ts scan i
  else liftBranch n vel speed opn ts scan i

/-- The scanning loop of `_detect_linear_manipulation`.  The four pattern
branches are checked in the source's order at each cursor position; a branch
whose acceptance test fails falls through to the next branch, exactly as the
source's straight-line `if` chain does, and the final fall-through advances
the cursor by one. -/
def linearScan (n : ℕ) (pos vel : ℕ → ℚ × ℚ × ℚ) (speed opn ts : ℕ → ℚ) :
    ℕ → ℕ → List AEvent
  | 0, _ => []
  | fuel + 1, i =>
    if i < n - 10 then
      -- PUSH/PULL branch (checked first).
      if |(vel i).2.2| > 1/2 ∧ |(vel i).2.1| < 1/2 ∧ speed i > 1/2 then
        let j := ppRun n vel speed i n i
        let e := min j (n - 1)
        let dur := ts e - ts i
        let net := (pos e).2.2 - (pos i).2.2
        if dur > 1/2 ∧ |net| > 1/10 then
          { action := if net < 0 then .push else .pull, obj := "unknown",
            start_time := ts i, end_time := ts e, duration := dur,
            confidence := 3/4,
            net_displacement := some net } :: linearScan n pos vel speed opn ts fuel j
        else slideBranch n vel speed opn ts (linearScan n pos vel speed opn ts fuel) i
      else slideBranch n vel speed opn ts (linearScan n pos vel speed opn ts fuel) i
    else []

/-- `_detect_linear_manipulation`, entered at cursor 0 with fuel `n`. -/
def detect_linear_manipulation (n : ℕ) (pos vel : ℕ → ℚ × ℚ × ℚ)
    (speed opn ts : ℕ → ℚ) : List AEvent :=
  linearScan n pos vel speed opn ts n 0

/-! ## Primary-twist filter (`_filter_primary_twists`) -/

/-- `max(l, key=lambda x: x['rotation_degrees'])` over a nonempty list given
its head: Python's `max` keeps the first maximal element.  Twist events
always carry the `rotation_degrees` key; `getD 0` is the total reading of
that access. -/
def maxByRot (a : AEvent) (rest : List AEvent) : AEvent :=
  rest.foldl
    (fun best x =>
      if x.rotation_degrees.getD 0 > best.rotation_degrees.getD 0 then x else best)
    a

/-- `_filter_primary_twists`: keep one `twist_open` (the largest rotation,
but the first one if its own rotation exceeds 30 degrees), symmetrically one
`twist_close` (largest, but the last one if it exceeds 30 degrees), and all
non-twist actions; re-sort by start time. -/
def filter_primary_twists (actions : List AEvent) : List AEvent :=
  let tOpens := actions.filter (fun a => a.action = .twist_open)
  let tCloses := actions.filter (fun a => a.action = .twist_close)
  let others := actions.filter
    (fun a => ¬(a.action = .twist_open ∨ a.action = .twist_close))
  let sigOpen : List AEvent :=
    match tOpens with
    | [] => []
    | a :: rest => [if a.rotation_degrees.getD 0 > 30 then a else maxByRot a rest]
  let sigClose : List AEvent :=
    match tCloses with
    | [] => []
    | a :: rest =>
      let last := (a :: rest).getLast (by simp)
      [if last.rotation_degrees.getD 0 > 30 then last else maxByRot a rest]
  sortByStart (sigOpen ++ sigClose ++ others)

/-! ## `detect_actions`: the full physics pipeline

The source loads two JSON files and then works on the per-timestep arrays
(`positions`, `velocities`, `speeds`, `openness`, `timestamps`, all of length
`n`) and the per-frame records (`frames`); the embedding starts from those.
Console display is not modelled. -/

/-- `AdvancedActionDetector.detect_actions` after data loading: containers,
container interactions (only when containers were found), rotation actions,
linear manipulation actions, sorted by start time, merged, and filtered to
the primary twists. -/
def detect_actions (T : ℚ) (n : ℕ) (pos vel : ℕ → ℚ × ℚ × ℚ)
    (speed opn ts : ℕ → ℚ) (frames : List Frame) : List AEvent :=
  let containers := detect_containers frames
  let containerActions :=
    if containers.isEmpty then []
    else detect_container_interactions n vel speed ts containers
  let rotationActions :=
    detect_rotation_actions T pos opn ts (extract_orientations frames)
      (fun i => frames.getD i default)
  let manipulationActions := detect_linear_manipulation n pos vel speed opn ts
  let allActions := containerActions ++ rotationActions ++ manipulationActions
  filter_primary_twists (merge_close_actions (sortByStart allActions))

end AdvancedActionDetector

/-! ## Reconciliation Junction (`hierarchical_detection_system.py`) -/

namespace HierarchicalActionDetector

open AdvancedActionDetector

/-- The `status` strings of `_analyze_physics_confidence`. -/
inductive Status where
  | CONFIDENT
  | AMBIGUOUS
  | UNCLEAR
deriving DecidableEq, Repr

/-- The decision dict of `_analyze_physics_confidence` (its free-text
`reason` field is console output and not modelled). -/
structure Decision where
  status : Status
  action : Option AEvent
deriving DecidableEq, Repr

/-- The `method` strings of `detect`. -/
inductive Method where
  | physics
  | physics_fallback
  | vision_override
  | vision_only
deriving DecidableEq, Repr

/-- The verdict of the vision stream's `classify_action`. -/
structure VisionVerdict where
  action : AKind
  confidence : ℚ
deriving DecidableEq, Repr

/-- The `final_action` dict assembled by `detect`. -/
structure FinalAction where
  action : AKind
  start_time : ℚ
  end_time : ℚ
  duration : ℚ
  confidence : ℚ
deriving DecidableEq, Repr

/-- `_analyze_physics_confidence`: `UNCLEAR` on an empty list, `AMBIGUOUS`
when both a push and a pull occur, when the first action's confidence is
below `PHYSICS_CONFIDENCE_THRESHOLD = 0.7`, or when (with at least two
actions) the first action's confidence exceeds the second's by less than
`AMBIGUITY_THRESHOLD = 0.15`; otherwise `CONFIDENT`. -/
def analyze_physics_confidence (physics_actions : List AEvent) : Decision :=
  match physics_actions with
  | [] => ⟨.UNCLEAR, none⟩
  | a :: rest =>
    if (a :: rest).any (fun x => x.action = .push) ∧
       (a :: rest).any (fun x => x.action = .pull) then
      ⟨.AMBIGUOUS, some a⟩
    else if a.confidence < 7/10 then
      ⟨.AMBIGUOUS, some a⟩
    else
      match rest with
      | [] => ⟨.CONFIDENT, some a⟩
      | b :: _ =>
        if a.confidence - b.confidence < 3/20 then ⟨.AMBIGUOUS, some a⟩
        else ⟨.CONFIDENT, some a⟩

/-- The final-action fields taken from a physics event. -/
def toFinal (a : AEvent) : FinalAction :=
  ⟨a.action, a.start_time, a.end_time, a.duration, a.confidence⟩

/-- The LEVEL-3 output policy of `detect`: the vision stream's availability
(the source's `self.vision is None or video_file is None` test) and its
verdict are collapsed into one `Option VisionVerdict` argument
(`none` = unavailable).  `lastTs` is `kinematics['timestamps'][-1]`, used
only by the vision-only branch.  The result is `none` exactly when the
source's `detect` returns `None` (no robot data), else the emitted action
and the detection method. -/
def detectJunction (physics_actions : List AEvent)
    (vision : Option VisionVerdict) (lastTs : ℚ) :
    Option (FinalAction × Method) :=
  match analyze_physics_confidence physics_actions with
  | ⟨.CONFIDENT, act⟩ => act.map (fun a => (toFinal a, .physics))
  | ⟨.AMBIGUOUS, act⟩ =>
    match vision with
    | none => act.map (fun a => (toFinal a, .physics_fallback))
    | some v =>
      match physics_actions with
      | [] => none  -- unreachable: AMBIGUOUS implies a nonempty physics list
      | a :: rest =>
        let lastE := (a :: rest).getLast (by simp)
        some (⟨v.action, a.start_time, lastE.end_time,
               lastE.end_time - a.start_time, v.confidence⟩, .vision_override)
  | ⟨.UNCLEAR, _⟩ =>
    match vision with
    | none => none
    | some v =>
      some (⟨v.action, 0, lastTs, lastTs, v.confidence⟩, .vision_only)

end HierarchicalActionDetector

/-! ## Boundary Resolver: displacement-reversal trim
(`UnifiedPipeline._detect_action_boundaries`) -/

namespace UnifiedPipeline

/-- `np.argmax`: first index of the maximum (0 on the empty list). -/
def argmaxList (l : List ℚ) : ℕ :=
  (l.enum.foldl (fun b p => if p.2 > b.2 then p else b) (0, l.headD 0)).1

/-- `np.argmin`: first index of the minimum (0 on the empty list). -/
def argminList (l : List ℚ) : ℕ :=
  (l.enum.foldl (fun b p => if p.2 < b.2 then p else b) (0, l.headD 0)).1

/-- `np.min` of a list (junk 0 on the empty list, never used that way). -/
def minList (l : List ℚ) : ℚ := l.foldl min (l.headD 0)

/-- `np.max` of a list (junk 0 on the empty list, never used that way). -/
def maxList (l : List ℚ) : ℚ := l.foldl max (l.headD 0)

/-- Freeze every position after index `k` at the position of index `k`
(the source's copy-then-overwrite loop). -/
def freezeAfter (ps : List (ℚ × ℚ × ℚ)) (k : ℕ) : List (ℚ × ℚ × ℚ) :=
  ps.enum.map (fun p => if p.1 ≤ k then p.2 else ps.getD k default)

/-- `_detect_action_boundaries` (its `timestamps` parameter feeds only a
print statement and is omitted): compute depth displacements from the first
sample, locate the backward (most positive) and forward (most negative)
displacement peaks, and on a significant post-peak reversal — more than 0.2
absolute and more than 30 percent of the peak magnitude, with the peak
itself above 0.3 and not within the last 10 samples — freeze the trajectory
at the peak; the backward peak is checked first.  Anything else returns the
positions unchanged. -/
def detect_action_boundaries (positions : List (ℚ × ℚ × ℚ)) :
    List (ℚ × ℚ × ℚ) :=
  if positions.length < 10 then positions
  else
    let z0 := (positions.headD default).2.2
    let zdisp : List ℚ := positions.map (fun p => p.2.2 - z0)
    let bIdx := argmaxList zdisp
    let fIdx := argminList zdisp
    let maxB := zdisp.getD bIdx 0
    let maxF := zdisp.getD fIdx 0
    let revB := minList (zdisp.drop bIdx) - maxB
    let revF := maxList (zdisp.drop fIdx) - maxF
    if maxB > 3/10 ∧ bIdx < positions.length - 10 ∧
        revB < -1/5 ∧ |revB| > |maxB| * (3/10) then
      freezeAfter positions bIdx
    else if |maxF| > 3/10 ∧ fIdx < positions.length - 10 ∧
        revF > 1/5 ∧ |revF| > |maxF| * (3/10) then
      freezeAfter positions fIdx
    else positions

end UnifiedPipeline

/-! # Claims -/

open AdvancedActionDetector HierarchicalActionDetector UnifiedPipeline

/-! ## C1: the Reconciliation Junction -/

/-- The status assignment exactly as the claim words it, reading "the top two
actions' confidence values differ by < 0.15" as an absolute difference.
The code instead compares the signed difference
`physics_actions[0]['confidence'] - physics_actions[1]['confidence']`
against the threshold; the two readings disagree when the second-listed
action has the higher confidence. -/
def claimStatusAbs (l : List AEvent) : Status :=
  match l with
  | [] => .UNCLEAR
  | a :: rest =>
    if (((a :: rest).any (fun x => x.action == AKind.push)) &&
        ((a :: rest).any (fun x => x.action == AKind.pull)))
       || decide (a.confidence < 7/10)
       || (match rest with
           | [] => false
           | b :: _ => decide (|a.confidence - b.confidence| < 3/20)) then
      .AMBIGUOUS
    else .CONFIDENT

/-- Physics event list on which the claim's reading of the ambiguity rule
disagrees with the code: a slide at confidence 0.70 followed by a container
open at confidence 0.90 (both are confidences the detectors emit). -/
def c1SlideEv : AEvent :=
  { action := .slide, obj := "unknown", start_time := 0, end_time := 1,
    duration := 1, confidence := 7/10 }

/-- Second event of the C1 counterexample list. -/
def c1OpenEv : AEvent :=
  { action := .copen, obj := "refrigerator", start_time := 2, end_time := 3,
    duration := 1, confidence := 9/10 }

/-- C1, counterexample: on `[slide conf 0.70, open conf 0.90]` there is no
push/pull conflict, the top confidence is not below 0.7, and the two
confidences differ by 0.20 ≥ 0.15, so the claim's characterisation makes the
status `Confident`; the code's signed comparison
`0.70 - 0.90 = -0.20 < 0.15` makes it `AMBIGUOUS`. -/
theorem C1_counterexample :
    claimStatusAbs [c1SlideEv, c1OpenEv] = .CONFIDENT ∧
      (analyze_physics_confidence [c1SlideEv, c1OpenEv]).status = .AMBIGUOUS := by
  constructor <;> decide

/-- The decision's `action` field is always the first physics event. -/
theorem analyze_action_eq_head (a : AEvent) (rest : List AEvent) :
    (analyze_physics_confidence (a :: rest)).action = some a := by
  simp only [analyze_physics_confidence]
  split
  · rfl
  · split
    · rfl
    · cases rest with
      | nil => rfl
      | cons b t => dsimp only; split <;> rfl

/-- C1 (amended): the junction's status is `Unclear` iff the physics list is
empty; on a nonempty list it is `Ambiguous` iff a push and a pull are both
present, or the first action's confidence is below 0.7, or (at least two
actions) the first action's confidence exceeds the second's by less than
0.15 — the signed difference, which is what the code computes; otherwise
`Confident`.  Output policy: `Confident` emits the physics top (first)
action with method `physics`; `Ambiguous` with vision available adopts the
vision verdict with method `vision_override`, without vision it emits the
physics top action with method `physics_fallback`; `Unclear` without vision
emits nothing. -/
theorem C1_junction (l : List AEvent) (a : AEvent) (rest : List AEvent)
    (v : VisionVerdict) (lastTs : ℚ) :
    ((analyze_physics_confidence l).status = .UNCLEAR ↔ l = []) ∧
    ((analyze_physics_confidence (a :: rest)).status = .AMBIGUOUS ↔
      (((∃ e ∈ a :: rest, e.action = AKind.push) ∧
        (∃ e ∈ a :: rest, e.action = AKind.pull)) ∨
       a.confidence < 7/10 ∨
       (∃ b t, rest = b :: t ∧ a.confidence - b.confidence < 3/20))) ∧
    ((analyze_physics_confidence (a :: rest)).status = .CONFIDENT →
      ∀ vis : Option VisionVerdict,
        detectJunction (a :: rest) vis lastTs = some (toFinal a, .physics)) ∧
    ((analyze_physics_confidence (a :: rest)).status = .AMBIGUOUS →
      detectJunction (a :: rest) (some v) lastTs =
        some (⟨v.action, a.start_time, ((a :: rest).getLast (by simp)).end_time,
               ((a :: rest).getLast (by simp)).end_time - a.start_time,
               v.confidence⟩, .vision_override) ∧
      detectJunction (a :: rest) none lastTs = some (toFinal a, .physics_fallback)) ∧
    ((analyze_physics_confidence l).status = .UNCLEAR →
      detectJunction l none lastTs = none) := by
  have hact := analyze_action_eq_head a rest
  refine ⟨?_, ?_, ?_, ?_, ?_⟩
  · cases l with
    | nil => simp [analyze_physics_confidence]
    | cons x xs =>
      simp only [analyze_physics_confidence]
      constructor
      · intro h
        exfalso
        revert h
        split
        · simp
        · split
          · simp
          · cases xs with
            | nil => simp
            | cons b t => dsimp only; split <;> simp
      · intro h; exact absurd h (by simp)
  · simp only [analyze_physics_confidence]
    split
    · rename_i h
      simp only [List.any_eq_true, decide_eq_true_eq] at h
      constructor
      · intro _; exact Or.inl h
      · intro _; rfl
    · rename_i h
      simp only [List.any_eq_true, decide_eq_true_eq] at h
      split
      · rename_i hconf
        constructor
        · intro _; exact Or.inr (Or.inl hconf)
        · intro _; rfl
      · rename_i hconf
        cases rest with
        | nil =>
          constructor
          · intro hSt; exact absurd hSt (by simp)
          · rintro (hp | hq | ⟨b', t', heq, hlt⟩)
            · exact absurd hp h
            · exact absurd hq hconf
            · exact absurd heq (by simp)
        | cons b t =>
          dsimp only
          split
          · rename_i hdiff
            constructor
            · intro _; exact Or.inr (Or.inr ⟨b, t, rfl, hdiff⟩)
            · intro _; rfl
          · rename_i hdiff
            constructor
            · intro hSt; exact absurd hSt (by simp)
            · rintro (hp | hq | ⟨b', t', heq, hlt⟩)
              · exact absurd hp h
              · exact absurd hq hconf
              · injection heq with hb ht
                subst hb
                exact absurd hlt hdiff
  · intro h vis
    have hD : analyze_physics_confidence (a :: rest) = ⟨.CONFIDENT, some a⟩ := by
      rcases hE : analyze_physics_confidence (a :: rest) with ⟨st, act⟩
      rw [hE] at h hact
      simp only at h hact
      rw [h, hact]
    delta detectJunction
    rw [hD]
    rfl
  · intro h
    have hD : analyze_physics_confidence (a :: rest) = ⟨.AMBIGUOUS, some a⟩ := by
      rcases hE : analyze_physics_confidence (a :: rest) with ⟨st, act⟩
      rw [hE] at h hact
      simp only at h hact
      rw [h, hact]
    constructor
    · delta detectJunction
      rw [hD]
    · delta detectJunction
      rw [hD]
      rfl
  · intro h
    rcases hE : analyze_physics_confidence l with ⟨st, act⟩
    rw [hE] at h
    simp only at h
    delta detectJunction
    rw [hE, h]

/-- A single high-confidence lift, used to witness the `Confident` clauses. -/
def c1LiftEv : AEvent :=
  { action := .lift, obj := "unknown", start_time := 0, end_time := 1,
    duration := 1, confidence := 17/20 }

/-- Witness for `C1_junction`: a lone lift at confidence 0.85 is `Confident`
and emitted with method `physics`; an empty physics list with no vision
stream emits nothing. -/
theorem C1_junction_witness :
    detectJunction [c1LiftEv] none 0 = some (toFinal c1LiftEv, .physics) ∧
      detectJunction [] none 0 = none := by
  have h := C1_junction [] c1LiftEv [] ⟨AKind.lift, 17/20⟩ 0
  exact ⟨h.2.2.1 (by decide) none, h.2.2.2.2 (by decide)⟩

/-! ## C2: the twist detector at the exact rate threshold -/

/-- Unwrapped roll angles (degrees) of the C2 synthetic trajectory: 41
degrees of rotation spread uniformly over the 12 samples. -/
def c2Roll : ℕ → ℚ := fun k => 41 * k / 11

/-- Timestamps of the C2 synthetic trajectory: 12 samples spanning exactly
0.3001 seconds. -/
def c2Ts : ℕ → ℚ := fun k => k * (3001 / 110000)

/-- Grip openness of the C2 synthetic trajectory: constantly 0.1 (closed). -/
def c2Opn : ℕ → ℚ := fun _ => 1/10

/-- Hand positions of the C2 synthetic trajectory: stationary at the origin
(zero net displacement). -/
def c2Pos : ℕ → ℚ × ℚ × ℚ := fun _ => (0, 0, 0)

/-- C2, counterexample: on a synthetic trajectory whose roll rate is
*exactly* the 2.0 rad/s trigger threshold at every sample, spanning 0.3001 s
and 41 degrees with closed grip and zero hand displacement, the twist
detector emits *nothing*: its trigger `abs(roll_rate[i]) > TWIST_RATE_THRESHOLD`
is strict, so a rate of exactly 2.0 never fires, where the claim demands
exactly one twist event. -/
theorem C2_counterexample :
    c2Ts 11 - c2Ts 0 = 3001/10000 ∧
    |c2Roll 11 - c2Roll 0| = 41 ∧
    (∀ k, c2Opn k < 3/10) ∧
    (∀ k, c2Pos k = (0, 0, 0)) ∧
    detect_twist 2 12 c2Roll (fun _ => 2) c2Opn c2Ts c2Pos
      (fun _ => default) (fun k => k) = [] := by
  exact ⟨by decide, by decide, fun k => by show (1:ℚ)/10 < 3/10; decide,
    fun k => rfl, by decide⟩

/-- C2 (amended): with the roll rate strictly above the 2.0 rad/s trigger
threshold (here 2.1 rad/s) for the same 0.3001 s window spanning 41 degrees,
grip closed and hand stationary, the output is exactly one twist event whose
direction follows the sign of the roll rate (positive rate = clockwise =
`twist_close`, negative rate = counter-clockwise = `twist_open`) with
`rotation_degrees` exactly 41. -/
theorem C2_twist :
    detect_twist 2 12 c2Roll (fun _ => 21/10) c2Opn c2Ts c2Pos
        (fun _ => default) (fun k => k) =
      [{ action := .twist_close, obj := "unknown", start_time := 0,
         end_time := 3001/10000, duration := 3001/10000, confidence := 17/20,
         rotation_degrees := some 41, direction := some .clockwise }] ∧
    detect_twist 2 12 c2Roll (fun _ => -(21/10)) c2Opn c2Ts c2Pos
        (fun _ => default) (fun k => k) =
      [{ action := .twist_open, obj := "unknown", start_time := 0,
         end_time := 3001/10000, duration := 3001/10000, confidence := 17/20,
         rotation_degrees := some 41, direction := some .counterClockwise }] := by
  exact ⟨by decide, by decide⟩

/-! ## C3: the Container Detector's acceptance rule -/

/-- Membership in a fold that appends `f a` for the elements satisfying `P`. -/
theorem mem_foldl_filterAppend {α β : Type} (f : α → List β) (P : α → Prop)
    [DecidablePred P] (l : List α) (init : List β) (x : β) :
    (x ∈ l.foldl (fun acc a => if P a then acc ++ f a else acc) init) ↔
      x ∈ init ∨ ∃ a ∈ l, P a ∧ x ∈ f a := by
  induction l generalizing init with
  | nil => simp
  | cons a l ih =>
    simp only [List.foldl_cons, ih, List.mem_cons, List.mem_append]
    by_cases hP : P a
    · simp only [if_pos hP, List.mem_append]
      constructor
      · rintro ((hx | hx) | ⟨b, hb, hPb, hxb⟩)
        · exact Or.inl hx
        · exact Or.inr ⟨a, Or.inl rfl, hP, hx⟩
        · exact Or.inr ⟨b, Or.inr hb, hPb, hxb⟩
      · rintro (hx | ⟨b, (rfl | hb), hPb, hxb⟩)
        · exact Or.inl (Or.inl hx)
        · exact Or.inl (Or.inr hxb)
        · exact Or.inr ⟨b, hb, hPb, hxb⟩
    · simp only [if_neg hP]
      constructor
      · rintro (hx | ⟨b, hb, hPb, hxb⟩)
        · exact Or.inl hx
        · exact Or.inr ⟨b, Or.inr hb, hPb, hxb⟩
      · rintro (hx | ⟨b, (rfl | hb), hPb, hxb⟩)
        · exact Or.inl hx
        · exact absurd hPb hP
        · exact Or.inr ⟨b, hb, hPb, hxb⟩

/-- The keys of `upsertDet`: unchanged when the key is already present, the
key appended otherwise. -/
theorem upsertDet_map_fst (key : String) (d : Det) :
    ∀ acc : List (String × List Det),
      (upsertDet key d acc).map Prod.fst =
        if key ∈ acc.map Prod.fst then acc.map Prod.fst
        else acc.map Prod.fst ++ [key] := by
  intro acc
  induction acc with
  | nil => simp [upsertDet]
  | cons p rest ih =>
    by_cases hk : p.1 = key
    · rcases p with ⟨k, ds⟩
      simp only at hk
      subst hk
      simp [upsertDet]
    · rcases p with ⟨k, ds⟩
      simp only at hk
      simp only [upsertDet, if_neg hk, List.map_cons, ih]
      have hne : ¬ key = k := fun h => hk h.symm
      by_cases hmem : key ∈ rest.map Prod.fst
      · simp [hmem, hne]
      · simp [hmem, hne]

/-- `upsertDet` preserves distinctness of the keys. -/
theorem upsertDet_nodup_fst (key : String) (d : Det)
    (acc : List (String × List Det)) (h : (acc.map Prod.fst).Nodup) :
    ((upsertDet key d acc).map Prod.fst).Nodup := by
  rw [upsertDet_map_fst]
  split
  · exact h
  · rename_i hmem
    rw [List.nodup_append]
    refine ⟨h, List.nodup_singleton key, fun a ha hb => ?_⟩
    rw [List.mem_singleton] at hb
    subst hb
    exact hmem ha

/-- An invariant preserved by every step of a fold holds of the fold. -/
theorem foldl_preserve {α β : Type} (step : β → α → β) (Inv : β → Prop)
    (hstep : ∀ b a, Inv b → Inv (step b a)) :
    ∀ (l : List α) (init : β), Inv init → Inv (l.foldl step init) := by
  intro l
  induction l with
  | nil => exact fun init h => h
  | cons a l ih => exact fun init h => ih _ (hstep _ _ h)

/-- The keys of the collected per-class detection table are distinct
(Python dict keys). -/
theorem collectDets_nodup_fst (frames : List Frame) :
    ((collectDets frames).map Prod.fst).Nodup := by
  unfold collectDets
  refine foldl_preserve _
    (fun acc : List (String × List Det) => (acc.map Prod.fst).Nodup) ?_ _ _ (by simp)
  intro acc p h
  dsimp only
  split
  · refine foldl_preserve _
      (fun acc : List (String × List Det) => (acc.map Prod.fst).Nodup) ?_ _ _ h
    intro acc' obj h'
    dsimp only
    split
    · exact upsertDet_nodup_fst _ _ _ h'
    · exact h'
  · exact h

/-- In a key-distinct association list, a key determines its value. -/
theorem mem_nodup_fst_eq {l : List (String × List Det)}
    (h : (l.map Prod.fst).Nodup) {k : String} {v w : List Det}
    (h1 : (k, v) ∈ l) (h2 : (k, w) ∈ l) : v = w := by
  induction l with
  | nil => cases h1
  | cons p rest ih =>
    simp only [List.map_cons, List.nodup_cons] at h
    rcases List.mem_cons.mp h1 with he1 | he1 <;>
      rcases List.mem_cons.mp h2 with he2 | he2
    · rw [← he1] at he2; exact congrArg Prod.snd he2.symm
    · exfalso
      exact h.1 (by simpa [← he1] using List.mem_map_of_mem Prod.fst he2)
    · exfalso
      exact h.1 (by simpa [← he2] using List.mem_map_of_mem Prod.fst he1)
    · exact ih h.2 he1 he2

/-- C3: the Container Detector accepts a class iff its (confidence-filtered)
detection count is at least 20, its fraction of the total frame count is at
least 0.10, and its mean consecutive frame-index gap is below 10; a class
failing any condition contributes nothing.  In particular the acceptance
predicate rejects a class with 25 detections at mean gap 15 over 200 frames
(12.5 percent). -/
theorem C3_container (frames : List Frame) (c : String) (dets : List Det)
    (hc : (c, dets) ∈ collectDets frames) :
    ((∃ e ∈ detect_containers frames, e.ctype = c) ↔
      containerAccept dets.length frames.length (avgGap (dets.map (·.frame)))) ∧
    ¬ containerAccept 25 200 15 := by
  constructor
  · constructor
    · rintro ⟨e, he, hec⟩
      simp only [detect_containers] at he
      rw [mem_foldl_filterAppend
        (fun p : String × List Det =>
          p.2.map (fun d =>
            ({ ctype := p.1, frame := d.frame, bbox := d.bbox,
               timestamp := d.timestamp } : ContainerDet)))
        (fun p : String × List Det =>
          containerAccept p.2.length frames.length (avgGap (p.2.map (·.frame))))]
          at he
      rcases he with he | ⟨p, hp, hPp, hxp⟩
      · cases he
      · obtain ⟨d, _, rfl⟩ := List.mem_map.mp hxp
        simp only at hec
        subst hec
        rwa [mem_nodup_fst_eq (collectDets_nodup_fst frames) hp hc] at hPp
    · intro hAcc
      have hne : dets ≠ [] := by
        intro h
        rw [h] at hAcc
        simp [containerAccept] at hAcc
      obtain ⟨d, hd⟩ := List.exists_mem_of_ne_nil dets hne
      refine ⟨⟨c, d.frame, d.bbox, d.timestamp⟩, ?_, rfl⟩
      simp only [detect_containers]
      rw [mem_foldl_filterAppend
        (fun p : String × List Det =>
          p.2.map (fun d =>
            ({ ctype := p.1, frame := d.frame, bbox := d.bbox,
               timestamp := d.timestamp } : ContainerDet)))
        (fun p : String × List Det =>
          containerAccept p.2.length frames.length (avgGap (p.2.map (·.frame))))]
      exact Or.inr ⟨(c, dets), hc, hAcc, List.mem_map_of_mem _ hd⟩
  · decide

/-- 25 frames, each with one confident door detection: 25 detections, 100
percent of frames, average gap 1. -/
def c3Frames : List Frame := (List.range 25).map (fun k =>
  { timestamp := (k : ℚ), objects_detected := true,
    objects := [{ cls := "door", confidence := some 1 }] })

/-- Witness for `C3_container`: the door class of `c3Frames` passes all
three acceptance conditions and appears in the output. -/
theorem C3_container_witness :
    ∃ e ∈ detect_containers c3Frames, e.ctype = "door" := by
  have h := C3_container c3Frames "door"
    ((collectDets c3Frames).headD ("", [])).2 (by decide)
  exact h.1.mpr (by decide)

/-! ## C4 and C5: the Temporal Merger -/

/-- The merge-window table exactly as the claim lists it: twist 3.0 s, pour
2.0 s, lift 5.0 s, place 2.0 s, container open/close 5.0 s, default 3.0 s. -/
def specMergeWindow : AKind → ℚ
  | .twist_open => 3
  | .twist_close => 3
  | .pour => 2
  | .lift => 5
  | .place => 2
  | .copen => 5
  | .cclose => 5
  | .push => 3
  | .pull => 3
  | .slide => 3

/-- The code's window table agrees with the claim's. -/
theorem mergeWindow_eq_spec (k : AKind) : mergeWindow k = specMergeWindow k := by
  cases k <;> rfl

/-- The claim's merge relation between an accumulator (equivalently, the
chain's most recently absorbed event, whose `end_time` the accumulator
carries) and the next event: same kind, and gap from the accumulator's end
to the next start strictly below the kind's window. -/
def specMergeRel (u v : AEvent) : Prop :=
  u.action = v.action ∧ v.start_time - u.end_time < specMergeWindow u.action

instance (u v : AEvent) : Decidable (specMergeRel u v) := by
  unfold specMergeRel; infer_instance

/-- Take the maximal chain of events each absorbed by the claim's merge
relation from its predecessor; returns the chain and the remaining suffix. -/
def takeChain (prev : AEvent) : List AEvent → List AEvent × List AEvent
  | [] => ([], [])
  | b :: rest =>
    if specMergeRel prev b then
      let p := takeChain b rest
      (b :: p.1, p.2)
    else ([], b :: rest)

/-- Collapse one maximal chain as the claim describes: the accumulator keeps
the first event's fields, its `end_time` is extended to the chain's last
event's, `duration` is recomputed from the two timestamps, and (when the
first event carries the rotation field) the rotation degrees of the chain
are summed into it. -/
def collapseChain (a : AEvent) (c : List AEvent) : AEvent :=
  match c.getLast? with
  | none => a
  | some z =>
    { a with
      end_time := z.end_time
      duration := z.end_time - a.start_time
      rotation_degrees :=
        a.rotation_degrees.map
          (fun r => r + (c.filterMap (·.rotation_degrees)).sum) }

theorem takeChain_suffix_len (prev : AEvent) (l : List AEvent) :
    (takeChain prev l).2.length ≤ l.length := by
  induction l generalizing prev with
  | nil => simp [takeChain]
  | cons b rest ih =>
    rw [takeChain]
    split
    · exact le_trans (ih b) (Nat.le_succ _)
    · exact le_refl _

/-- The spec-side single pass: split into maximal merge chains and collapse
each. -/
def mergeSpec : List AEvent → List AEvent
  | [] => []
  | a :: rest =>
    let p := takeChain a rest
    collapseChain a p.1 :: mergeSpec p.2
termination_by l => l.length
decreasing_by
  simp only [List.length_cons]
  exact Nat.lt_succ_of_le (takeChain_suffix_len _ _)

/-- The code's merge condition is the claim's merge relation. -/
theorem mergeCond_iff_spec (u v : AEvent) : mergeCond u v ↔ specMergeRel u v := by
  unfold mergeCond specMergeRel
  rw [mergeWindow_eq_spec]

/-- Absorbing the first chain element into the accumulator commutes with
collapsing the chain. -/
theorem collapseChain_cons (cur b : AEvent) (c : List AEvent) :
    collapseChain cur (b :: c) = collapseChain (mergeInto cur b) c := by
  cases c with
  | nil =>
    simp only [collapseChain, List.getLast?_singleton, List.getLast?_nil,
      mergeInto, List.filterMap]
    cases hr : cur.rotation_degrees with
    | none => simp
    | some r =>
      cases hb : b.rotation_degrees with
      | none => simp
      | some s => simp
  | cons c0 cs =>
    obtain ⟨z, hz⟩ : ∃ z, (c0 :: cs).getLast? = some z :=
      Option.isSome_iff_exists.mp (List.getLast?_isSome.mpr (by simp))
    simp only [collapseChain, List.getLast?_cons_cons, hz, mergeInto,
      List.filterMap]
    cases hr : cur.rotation_degrees with
    | none => simp
    | some r =>
      cases hb : b.rotation_degrees with
      | none => simp
      | some s =>
        simp [add_assoc]

/-- `takeChain` only reads its first argument's `action` and `end_time`. -/
theorem takeChain_congr (x y : AEvent) (hact : x.action = y.action)
    (hend : x.end_time = y.end_time) (l : List AEvent) :
    takeChain x l = takeChain y l := by
  cases l with
  | nil => rfl
  | cons b rest =>
    have : specMergeRel x b ↔ specMergeRel y b := by
      unfold specMergeRel
      rw [hact, hend]
    rw [takeChain, takeChain]
    by_cases h : specMergeRel y b
    · rw [if_pos (this.mpr h), if_pos h]
    · rw [if_neg (fun hx => h (this.mp hx)), if_neg h]

/-- The accumulation loop realises exactly one maximal chain collapse
followed by a fresh pass over the suffix. -/
theorem mergeLoop_eq_chain (rest : List AEvent) :
    ∀ cur : AEvent,
      mergeLoop cur rest =
        collapseChain cur (takeChain cur rest).1 ::
          merge_close_actions (takeChain cur rest).2 := by
  induction rest with
  | nil => intro cur; rfl
  | cons b rest ih =>
    intro cur
    rw [mergeLoop, takeChain]
    by_cases h : mergeCond cur b
    · have hs : specMergeRel cur b := (mergeCond_iff_spec cur b).mp h
      rw [if_pos h, if_pos hs]
      rw [ih (mergeInto cur b)]
      have htc : takeChain (mergeInto cur b) rest = takeChain b rest :=
        takeChain_congr _ _ (by simp [mergeInto, h.1]) (by simp [mergeInto]) rest
      rw [htc, collapseChain_cons]
    · have hs : ¬ specMergeRel cur b := fun hx => h ((mergeCond_iff_spec cur b).mpr hx)
      rw [if_neg h, if_neg hs]
      rfl

/-- C4: the Temporal Merger is exactly the claim's single greedy pass: split
the list into maximal chains in which each event follows its predecessor
with the same kind and a gap below that kind's configured window (twist 3 s,
pour 2 s, lift 5 s, place 2 s, container open/close 5 s, default 3 s), and
collapse each chain into its first event with the end time extended to the
chain's last event, the duration recomputed, and rotation degrees summed;
events of different kinds are never merged. -/
theorem C4_merger : ∀ l : List AEvent, merge_close_actions l = mergeSpec l := by
  intro l
  generalize hn : l.length = n
  induction n using Nat.strong_induction_on generalizing l with
  | _ n ih =>
    cases l with
    | nil => simp [merge_close_actions, mergeSpec]
    | cons a rest =>
      rw [merge_close_actions, mergeLoop_eq_chain rest a, mergeSpec]
      have hlt : (takeChain a rest).2.length < n := by
        rw [← hn]
        simp only [List.length_cons]
        exact Nat.lt_succ_of_le (takeChain_suffix_len a rest)
      rw [ih _ hlt _ rfl]

/-- The first event of the accumulation loop's output keeps the
accumulator's kind and start time. -/
theorem mergeLoop_head (rest : List AEvent) :
    ∀ cur : AEvent, ∃ x l', mergeLoop cur rest = x :: l' ∧
      x.action = cur.action ∧ x.start_time = cur.start_time := by
  induction rest with
  | nil => exact fun cur => ⟨cur, [], rfl, rfl, rfl⟩
  | cons b rest ih =>
    intro cur
    rw [mergeLoop]
    by_cases h : mergeCond cur b
    · rw [if_pos h]
      obtain ⟨x, l', hx, hact, hst⟩ := ih (mergeInto cur b)
      exact ⟨x, l', hx, by rw [hact]; rfl, by rw [hst]; rfl⟩
    · rw [if_neg h]
      exact ⟨cur, mergeLoop b rest, rfl, rfl, rfl⟩

/-- No two adjacent events of the merger's output are still mergeable. -/
theorem mergeLoop_chain' (rest : List AEvent) :
    ∀ cur : AEvent,
      List.Chain' (fun u v => ¬ mergeCond u v) (mergeLoop cur rest) := by
  induction rest with
  | nil => intro cur; simp [mergeLoop]
  | cons b rest ih =>
    intro cur
    rw [mergeLoop]
    by_cases h : mergeCond cur b
    · rw [if_pos h]; exact ih (mergeInto cur b)
    · rw [if_neg h]
      obtain ⟨x, l', hx, hact, hst⟩ := mergeLoop_head rest b
      rw [hx]
      refine List.Chain'.cons ?_ (hx ▸ ih b)
      intro hm
      exact h ⟨hm.1.trans hact, by rw [← hst]; exact hm.2⟩

/-- A list with no two adjacent mergeable events is a fixed point of the
merger. -/
theorem merge_of_chain' :
    ∀ l : List AEvent, List.Chain' (fun u v => ¬ mergeCond u v) l →
      merge_close_actions l = l := by
  intro l
  induction l with
  | nil => intro _; rfl
  | cons a rest ih =>
    intro h
    cases rest with
    | nil => rfl
    | cons b t =>
      rw [List.chain'_cons] at h
      rw [merge_close_actions, mergeLoop, if_neg h.1]
      have := ih h.2
      rw [merge_close_actions] at this
      rw [this]

/-- C5: the Temporal Merger is idempotent on every start-time-sorted action
list: merging an already-merged list returns it unchanged. -/
theorem C5_merge_idempotent (l : List AEvent)
    (hsorted : List.Chain' (fun a b => a.start_time ≤ b.start_time) l) :
    merge_close_actions (merge_close_actions l) = merge_close_actions l := by
  cases l with
  | nil => rfl
  | cons a rest =>
    rw [merge_close_actions]
    exact merge_of_chain' _ (mergeLoop_chain' rest a)

/-- Witness for `C5_merge_idempotent` on a concrete sorted two-event list. -/
theorem C5_merge_idempotent_witness :
    merge_close_actions (merge_close_actions [c1SlideEv, c1OpenEv]) =
      merge_close_actions [c1SlideEv, c1OpenEv] := by
  exact C5_merge_idempotent [c1SlideEv, c1OpenEv]
    (by norm_num [List.chain'_cons, List.chain'_singleton, c1SlideEv, c1OpenEv])

/-! ## C8: the displacement-reversal trim -/

/-- Depth displacements from the first sample
(`z_displacements = positions[:, 2] - positions[0, 2]`). -/
def zdispOf (ps : List (ℚ × ℚ × ℚ)) : List ℚ :=
  ps.map (fun p => p.2.2 - (ps.headD default).2.2)

/-- Index of the backward (most positive depth) displacement peak. -/
def bwdIdx (ps : List (ℚ × ℚ × ℚ)) : ℕ := argmaxList (zdispOf ps)

/-- Index of the forward (most negative depth) displacement peak. -/
def fwdIdx (ps : List (ℚ × ℚ × ℚ)) : ℕ := argminList (zdispOf ps)

/-- The backward-peak trim condition of `_detect_action_boundaries`: peak
above 0.3, peak not within the last 10 samples, post-peak reversal below
-0.2 and larger in magnitude than 30 percent of the peak. -/
def bwdCond (ps : List (ℚ × ℚ × ℚ)) : Prop :=
  let zdisp := zdispOf ps
  let maxB := zdisp.getD (bwdIdx ps) 0
  let revB := minList (zdisp.drop (bwdIdx ps)) - maxB
  maxB > 3/10 ∧ bwdIdx ps < ps.length - 10 ∧
    revB < -1/5 ∧ |revB| > |maxB| * (3/10)

/-- The forward-peak trim condition of `_detect_action_boundaries`. -/
def fwdCond (ps : List (ℚ × ℚ × ℚ)) : Prop :=
  let zdisp := zdispOf ps
  let maxF := zdisp.getD (fwdIdx ps) 0
  let revF := maxList (zdisp.drop (fwdIdx ps)) - maxF
  |maxF| > 3/10 ∧ fwdIdx ps < ps.length - 10 ∧
    revF > 1/5 ∧ |revF| > |maxF| * (3/10)

instance (ps : List (ℚ × ℚ × ℚ)) : Decidable (bwdCond ps) := by
  unfold bwdCond; infer_instance

instance (ps : List (ℚ × ℚ × ℚ)) : Decidable (fwdCond ps) := by
  unfold fwdCond; infer_instance

/-- A trajectory whose depth displacement climbs to peak 1.0 at index 5 and
then settles back to 0.75: a 25 percent reversal, above the absolute 0.2
floor. -/
def c8Pos : List (ℚ × ℚ × ℚ) :=
  (List.range 30).map (fun k => (0, 0, if k ≤ 5 then (k : ℚ)/5 else 3/4))

/-- C8, counterexample: on `c8Pos` the displacement reverses after the peak
by 0.25 — more than 20 percent of the peak magnitude 1.0 and more than the
absolute 0.2 floor — so the claim demands truncation at the peak (index 5,
which would genuinely change the positions), yet the code leaves the
positions unchanged: its reversal-fraction threshold is 30 percent, not the
claimed 20 percent. -/
theorem C8_counterexample :
    bwdIdx c8Pos = 5 ∧
    (zdispOf c8Pos).getD 5 0 = 1 ∧
    minList ((zdispOf c8Pos).drop 5) - 1 = -(1/4) ∧
    ((-(1/4) : ℚ) < -1/5 ∧ |(-(1/4) : ℚ)| > |(1 : ℚ)| * (1/5)) ∧
    freezeAfter c8Pos 5 ≠ c8Pos ∧
    detect_action_boundaries c8Pos = c8Pos := by
  refine ⟨by decide, by decide, by decide, by decide, by decide, by decide⟩

/-- C8 (amended): the trim truncates (freezes all samples after) the
backward displacement peak iff the peak exceeds 0.3, lies more than 10
samples before the end, and the post-peak reversal is below -0.2 and larger
in magnitude than **30 percent** (not 20) of the peak; failing that it does
the symmetric check on the forward peak; with neither reversal — or fewer
than 10 samples — the positions are returned unchanged. -/
theorem C8_trim (ps : List (ℚ × ℚ × ℚ)) :
    (ps.length < 10 → detect_action_boundaries ps = ps) ∧
    (10 ≤ ps.length → bwdCond ps →
      detect_action_boundaries ps = freezeAfter ps (bwdIdx ps)) ∧
    (10 ≤ ps.length → ¬ bwdCond ps → fwdCond ps →
      detect_action_boundaries ps = freezeAfter ps (fwdIdx ps)) ∧
    (10 ≤ ps.length → ¬ bwdCond ps → ¬ fwdCond ps →
      detect_action_boundaries ps = ps) := by
  unfold detect_action_boundaries bwdCond fwdCond bwdIdx fwdIdx zdispOf
  refine ⟨fun h => by rw [if_pos h], fun hlen hb => ?_, fun hlen hb hf => ?_,
    fun hlen hb hf => ?_⟩
  · rw [if_neg (by omega), if_pos hb]
  · rw [if_neg (by omega), if_neg hb, if_pos hf]
  · rw [if_neg (by omega), if_neg hb, if_neg hf]

/-- Witness for `C8_trim`: on `c8Pos` (30 samples, both reversal conditions
failing) the positions are returned unchanged. -/
theorem C8_trim_witness : detect_action_boundaries c8Pos = c8Pos := by
  exact (C8_trim c8Pos).2.2.2 (by decide) (by decide) (by decide)

/-! ## C10: the rotational detector's minimum-orientation guard -/

/-- The orientation-valid index list has exactly as many entries as there
are orientation-carrying frames. -/
theorem filter_range_isSome_length (l : List (Option Orient)) :
    ((List.range l.length).filter (fun i => (l.getD i none).isSome)).length =
      l.countP (·.isSome) := by
  induction l using List.reverseRecOn with
  | nil => simp
  | append_singleton l a ih =>
    rw [List.length_append, List.length_singleton, List.range_succ,
      List.filter_append, List.length_append, List.countP_append]
    congr 1
    · rw [← ih]
      congr 1
      apply List.filter_congr
      intro i hi
      rw [List.mem_range] at hi
      rw [List.getD_append _ _ _ _ hi]
    · have ha : (l ++ [a]).getD l.length none = a := by
        simp only [List.getD]
        rw [List.get?_append_right (le_refl l.length)]
        simp
      simp only [List.getD] at ha
      simp [List.filter_singleton, ha]
      cases a <;> simp

/-- C10: the rotational detector returns the empty event list whenever
fewer than 10 frames carry orientation data (covering both of its early
returns: no orientation at all, and fewer than 10 valid samples). -/
theorem C10_rotation_guard (T : ℚ) (pos : ℕ → ℚ × ℚ × ℚ) (opn ts : ℕ → ℚ)
    (orientations : List (Option Orient)) (frames : ℕ → Frame)
    (h : orientations.countP (·.isSome) < 10) :
    detect_rotation_actions T pos opn ts orientations frames = [] := by
  unfold detect_rotation_actions
  split
  · rfl
  · have hm : ((List.range orientations.length).filter
        (fun i => (orientations.getD i none).isSome)).length < 10 := by
      rw [filter_range_isSome_length]
      exact h
    simp only [if_pos hm]

/-- Five orientation-carrying frames among twelve. -/
def c10Orients : List (Option Orient) :=
  List.replicate 5 (some ⟨0, 0, 0, (0, 0, 0)⟩) ++ List.replicate 7 none

/-- Witness for `C10_rotation_guard` on a 12-frame trajectory with only 5
orientation samples. -/
theorem C10_rotation_guard_witness :
    detect_rotation_actions 2 (fun _ => (0, 0, 0)) (fun _ => 0) (fun _ => 0)
      c10Orients (fun _ => default) = [] :=
  C10_rotation_guard 2 _ _ _ c10Orients _ (by decide)

/-! ## C6: push/pull direction from net displacement -/

theorem ppRun_ge (n : ℕ) (vel : ℕ → ℚ × ℚ × ℚ) (speed : ℕ → ℚ) (start : ℕ) :
    ∀ fuel j, j ≤ ppRun n vel speed start fuel j := by
  intro fuel
  induction fuel with
  | zero => intro j; exact le_refl j
  | succ fuel ih =>
    intro j
    rw [ppRun]
    split
    · split
      · exact le_refl j
      · exact le_trans (Nat.le_succ j) (ih (j + 1))
    · exact le_refl j

theorem slideRun_ge (n : ℕ) (vel : ℕ → ℚ × ℚ × ℚ) :
    ∀ fuel j, j ≤ slideRun n vel fuel j := by
  intro fuel
  induction fuel with
  | zero => intro j; exact le_refl j
  | succ fuel ih =>
    intro j
    rw [slideRun]
    split
    · exact le_trans (Nat.le_succ j) (ih (j + 1))
    · exact le_refl j

theorem liftRun_ge (n : ℕ) (vel : ℕ → ℚ × ℚ × ℚ) :
    ∀ fuel j, j ≤ liftRun n vel fuel j := by
  intro fuel
  induction fuel with
  | zero => intro j; exact le_refl j
  | succ fuel ih =>
    intro j
    rw [liftRun]
    split
    · exact le_trans (Nat.le_succ j) (ih (j + 1))
    · exact le_refl j

theorem placeRun_ge (n : ℕ) (vel : ℕ → ℚ × ℚ × ℚ) :
    ∀ fuel j, j ≤ placeRun n vel fuel j := by
  intro fuel
  induction fuel with
  | zero => intro j; exact le_refl j
  | succ fuel ih =>
    intro j
    rw [placeRun]
    split
    · exact le_trans (Nat.le_succ j) (ih (j + 1))
    · exact le_refl j

/-- Everything the PLACE branch can emit: either the place event built at
cursor `i'` (with its window guard), or output of the continuation. -/
theorem mem_placeBranch {n : ℕ} {vel : ℕ → ℚ × ℚ × ℚ} {opn ts : ℕ → ℚ}
    {scan : ℕ → List AEvent} {i' : ℕ} {e : AEvent}
    (he : e ∈ placeBranch n vel opn ts scan i') :
    (placeRun n vel n i' < n - 10 ∧
      e = { action := .place, obj := "unknown", start_time := ts i',
            end_time := ts (min (placeRun n vel n i' + 10) (n - 1)),
            duration := ts (min (placeRun n vel n i' + 10) (n - 1)) - ts i',
            confidence := 7/10 }) ∨
    (∃ k, i' < k ∧ e ∈ scan k) := by
  simp only [placeBranch] at he
  split at he
  · split at he
    · split at he
      · rcases List.mem_cons.mp he with rfl | he
        · rename_i hwin _
          exact Or.inl ⟨hwin, rfl⟩
        · exact Or.inr ⟨_, by have := placeRun_ge n vel n i'; omega, he⟩
      · exact Or.inr ⟨_, Nat.lt_succ_self i', he⟩
    · exact Or.inr ⟨_, Nat.lt_succ_self i', he⟩
  · exact Or.inr ⟨_, Nat.lt_succ_self i', he⟩

/-- Everything the LIFT branch can emit: the lift event at cursor `i` (with
its run guard), or the PLACE branch at a cursor that is either `i` itself or
the advanced-but-unemitted lift run end. -/
theorem mem_liftBranch {n : ℕ} {vel : ℕ → ℚ × ℚ × ℚ} {speed opn ts : ℕ → ℚ}
    {scan : ℕ → List AEvent} {i : ℕ} {e : AEvent}
    (he : e ∈ liftBranch n vel speed opn ts scan i) :
    (min (liftRun n vel n i) (n - 1) - i > 5 ∧
      e = { action := .lift, obj := "unknown", start_time := ts i,
            end_time := ts (min (liftRun n vel n i) (n - 1)),
            duration := ts (min (liftRun n vel n i) (n - 1)) - ts i,
            confidence := 3/4 }) ∨
    (∃ k, e ∈ scan k ∧ liftRun n vel n i ≤ k) ∨
    (∃ i'', e ∈ placeBranch n vel opn ts scan i'' ∧
      (i'' = i ∨ (i'' = liftRun n vel n i ∧
        min (liftRun n vel n i) (n - 1) - i ≤ 5))) := by
  simp only [liftBranch] at he
  split at he
  · split at he
    · rcases List.mem_cons.mp he with rfl | he
      · rename_i _ hgap
        exact Or.inl ⟨hgap, rfl⟩
      · exact Or.inr (Or.inl ⟨_, he, le_refl _⟩)
    · rename_i hgap
      exact Or.inr (Or.inr ⟨_, he, Or.inr ⟨rfl, by omega⟩⟩)
  · exact Or.inr (Or.inr ⟨_, he, Or.inl rfl⟩)

/-- Everything the SLIDE branch can emit: the slide event at cursor `i`
(with its guards), the continuation, or the LIFT branch at `i`. -/
theorem mem_slideBranch {n : ℕ} {vel : ℕ → ℚ × ℚ × ℚ} {speed opn ts : ℕ → ℚ}
    {scan : ℕ → List AEvent} {i : ℕ} {e : AEvent}
    (he : e ∈ slideBranch n vel speed opn ts scan i) :
    ((ts (min (slideRun n vel n i) (n - 1)) - ts i > 3/10 ∧
      min (slideRun n vel n i) (n - 1) - i > 5) ∧
      e = { action := .slide, obj := "unknown", start_time := ts i,
            end_time := ts (min (slideRun n vel n i) (n - 1)),
            duration := ts (min (slideRun n vel n i) (n - 1)) - ts i,
            confidence := 7/10 }) ∨
    (∃ k, e ∈ scan k ∧ i ≤ k) ∨
    (e ∈ liftBranch n vel speed opn ts scan i) := by
  simp only [slideBranch] at he
  split at he
  · split at he
    · rcases List.mem_cons.mp he with rfl | he
      · rename_i _ hguards
        exact Or.inl ⟨hguards, rfl⟩
      · exact Or.inr (Or.inl ⟨_, he, slideRun_ge n vel n i⟩)
    · exact Or.inr (Or.inr he)
  · exact Or.inr (Or.inr he)

/-- C6: every push or pull event emitted by the Linear Manipulation Detector
arises from a window `[a, b]` of the trajectory, is accepted only with
duration above 0.5 s and net depth displacement of magnitude above 0.1, and
its kind is decided by the *net* depth displacement between window end and
window start: negative gives push, positive gives pull. -/
theorem C6_pushpull (n : ℕ) (pos vel : ℕ → ℚ × ℚ × ℚ) (speed opn ts : ℕ → ℚ)
    (e : AEvent) (he : e ∈ detect_linear_manipulation n pos vel speed opn ts)
    (hpp : e.action = .push ∨ e.action = .pull) :
    ∃ a b : ℕ, a ≤ b ∧ b ≤ n - 1 ∧ e.start_time = ts a ∧ e.end_time = ts b ∧
      e.duration = ts b - ts a ∧
      e.net_displacement = some ((pos b).2.2 - (pos a).2.2) ∧
      e.duration > 1/2 ∧ |(pos b).2.2 - (pos a).2.2| > 1/10 ∧
      (e.action = .push ↔ (pos b).2.2 - (pos a).2.2 < 0) := by
  suffices h : ∀ fuel i, e ∈ linearScan n pos vel speed opn ts fuel i →
      (∃ a b : ℕ, a ≤ b ∧ b ≤ n - 1 ∧ e.start_time = ts a ∧ e.end_time = ts b ∧
        e.duration = ts b - ts a ∧
        e.net_displacement = some ((pos b).2.2 - (pos a).2.2) ∧
        e.duration > 1/2 ∧ |(pos b).2.2 - (pos a).2.2| > 1/10 ∧
        (e.action = .push ↔ (pos b).2.2 - (pos a).2.2 < 0)) by
    exact h n 0 he
  intro fuel
  induction fuel with
  | zero => intro i he'; simp [linearScan] at he'
  | succ fuel ih =>
    intro i he'
    simp only [linearScan] at he'
    split at he'
    case isFalse => simp at he'
    case isTrue hi =>
      have hslide : e ∈ slideBranch n vel speed opn ts
          (linearScan n pos vel speed opn ts fuel) i →
          ∃ a b : ℕ, a ≤ b ∧ b ≤ n - 1 ∧ e.start_time = ts a ∧
            e.end_time = ts b ∧ e.duration = ts b - ts a ∧
            e.net_displacement = some ((pos b).2.2 - (pos a).2.2) ∧
            e.duration > 1/2 ∧ |(pos b).2.2 - (pos a).2.2| > 1/10 ∧
            (e.action = .push ↔ (pos b).2.2 - (pos a).2.2 < 0) := by
        intro hm
        rcases mem_slideBranch hm with ⟨_, rfl⟩ | ⟨k, hk, _⟩ | hlift
        · rcases hpp with h | h <;> simp at h
        · exact ih k hk
        · rcases mem_liftBranch hlift with ⟨_, rfl⟩ | ⟨k, hk, _⟩ | ⟨i'', hplace, _⟩
          · rcases hpp with h | h <;> simp at h
          · exact ih k hk
          · rcases mem_placeBranch hplace with ⟨_, rfl⟩ | ⟨k, _, hk⟩
            · rcases hpp with h | h <;> simp at h
            · exact ih k hk
      split at he'
      case isTrue hcond =>
        split at he'
        case isTrue hemit =>
          rcases List.mem_cons.mp he' with rfl | he'
          · refine ⟨i, min (ppRun n vel speed i n i) (n - 1),
              Nat.le_min.mpr ⟨ppRun_ge n vel speed i n i, by omega⟩,
              Nat.min_le_right _ _, rfl, rfl, rfl, rfl, hemit.1, hemit.2, ?_⟩
            by_cases hneg : (pos (min (ppRun n vel speed i n i) (n - 1))).2.2
                - (pos i).2.2 < 0
            · simp [hneg]
            · simp [hneg]
          · exact ih _ he'
        case isFalse => exact hslide he'
      case isFalse => exact hslide he'

/-- The depth-axis positions of the C6 witness trajectory. -/
def c6Pos : ℕ → ℚ × ℚ × ℚ := fun k => (0, 0, -(k : ℚ)/5)

/-- The C6 witness velocity signal: steady forward (negative depth) motion. -/
def c6Vel : ℕ → ℚ × ℚ × ℚ := fun _ => (0, 0, -3/5)

/-- The single push event the Linear Manipulation Detector emits on the C6
witness trajectory. -/
def c6Ev : AEvent :=
  { action := .push, obj := "unknown", start_time := 0, end_time := 11/10,
    duration := 11/10, confidence := 3/4, net_displacement := some (-(11/5)) }

/-! ## Shared pipeline lemmas: sort, merge and twist-filter preservation -/

/-- Ordering of events by start time, the sort key of `detect_actions`. -/
def leStart (a b : AEvent) : Prop := a.start_time ≤ b.start_time

instance (a b : AEvent) : Decidable (leStart a b) := by
  unfold leStart; infer_instance

theorem insertByStart_perm (x : AEvent) :
    ∀ l, List.Perm (insertByStart x l) (x :: l) := by
  intro l
  induction l with
  | nil => exact List.Perm.refl _
  | cons y ys ih =>
    rw [insertByStart]
    split
    · exact List.Perm.trans (List.Perm.cons y ih) (List.Perm.swap x y ys)
    · exact List.Perm.refl _

theorem sortByStart_perm_aux :
    ∀ (l acc : List AEvent),
      List.Perm (l.foldl (fun acc x => insertByStart x acc) acc) (l ++ acc) := by
  intro l
  induction l with
  | nil => intro acc; exact List.Perm.refl _
  | cons x l ih =>
    intro acc
    exact List.Perm.trans (ih (insertByStart x acc))
      (List.Perm.trans (List.Perm.append_left l (insertByStart_perm x acc))
        List.perm_middle)

theorem sortByStart_perm (l : List AEvent) : List.Perm (sortByStart l) l := by
  simpa using sortByStart_perm_aux l []

theorem mem_sortByStart {e : AEvent} {l : List AEvent} :
    e ∈ sortByStart l ↔ e ∈ l :=
  (sortByStart_perm l).mem_iff

theorem insertByStart_sorted (x : AEvent) :
    ∀ l, List.Pairwise leStart l → List.Pairwise leStart (insertByStart x l) := by
  intro l
  induction l with
  | nil => intro _; simp [insertByStart]
  | cons y ys ih =>
    intro h
    rw [List.pairwise_cons] at h
    rw [insertByStart]
    split
    · rename_i hyx
      rw [List.pairwise_cons]
      refine ⟨fun b hb => ?_, ih h.2⟩
      rcases List.mem_cons.mp ((insertByStart_perm x ys).mem_iff.mp hb) with rfl | hb
      · exact hyx
      · exact h.1 b hb
    · rename_i hyx
      rw [List.pairwise_cons]
      refine ⟨fun b hb => ?_, List.pairwise_cons.mpr h⟩
      rcases List.mem_cons.mp hb with rfl | hb
      · exact le_of_not_le hyx
      · exact le_trans (le_of_not_le hyx) (h.1 b hb)

theorem sortByStart_sorted (l : List AEvent) :
    List.Pairwise leStart (sortByStart l) := by
  unfold sortByStart
  exact foldl_preserve _ (fun acc => List.Pairwise leStart acc)
    (fun acc x h => insertByStart_sorted x acc h) l [] (List.Pairwise.nil)

/-- Any property preserved by merging (given the start-sorted order) holds
of every event produced by the accumulation loop. -/
theorem mergeLoop_pres (P : AEvent → Prop)
    (Hm : ∀ cur b, P cur → P b → cur.start_time ≤ b.start_time →
      P (mergeInto cur b)) :
    ∀ (rest : List AEvent) (cur : AEvent), P cur → (∀ x ∈ rest, P x) →
      List.Pairwise leStart (cur :: rest) → ∀ e ∈ mergeLoop cur rest, P e := by
  intro rest
  induction rest with
  | nil =>
    intro cur hc _ _ e he
    rw [mergeLoop] at he
    rw [List.mem_singleton] at he
    exact he ▸ hc
  | cons b rest ih =>
    intro cur hc hr hp e he
    rw [List.pairwise_cons] at hp
    rw [mergeLoop] at he
    split at he
    · refine ih (mergeInto cur b)
        (Hm cur b hc (hr b (List.mem_cons_self b rest)) (hp.1 b (List.mem_cons_self b rest)))
        (fun x hx => hr x (List.mem_cons_of_mem b hx)) ?_ e he
      rw [List.pairwise_cons]
      refine ⟨fun x hx => ?_, (List.pairwise_cons.mp hp.2).2⟩
      show (mergeInto cur b).start_time ≤ x.start_time
      have : (mergeInto cur b).start_time = cur.start_time := rfl
      rw [this]
      exact hp.1 x (List.mem_cons_of_mem b hx)
    · rcases List.mem_cons.mp he with rfl | he'
      · exact hc
      · exact ih b (hr b (List.mem_cons_self b rest))
          (fun x hx => hr x (List.mem_cons_of_mem b hx)) hp.2 e he'

/-- Any property preserved by merging holds of every event produced by the
Temporal Merger on a start-sorted list. -/
theorem merge_pres (P : AEvent → Prop)
    (Hm : ∀ cur b, P cur → P b → cur.start_time ≤ b.start_time →
      P (mergeInto cur b))
    (l : List AEvent) (hall : ∀ x ∈ l, P x)
    (hp : List.Pairwise leStart l) :
    ∀ e ∈ merge_close_actions l, P e := by
  cases l with
  | nil => intro e he; cases he
  | cons a rest =>
    intro e he
    exact mergeLoop_pres P Hm rest a (hall a (List.mem_cons_self a rest))
      (fun x hx => hall x (List.mem_cons_of_mem a hx)) hp e he

/-- A fold whose step always returns either its accumulator or its new
element stays inside the accumulator-and-elements set. -/
theorem foldl_pick_mem {α : Type} (f : α → α → α)
    (hf : ∀ b x, f b x = b ∨ f b x = x) :
    ∀ (l : List α) (a : α), l.foldl f a ∈ a :: l := by
  intro l
  induction l with
  | nil => intro a; exact List.mem_singleton.mpr rfl
  | cons x l ih =>
    intro a
    show List.foldl f (f a x) l ∈ a :: x :: l
    rcases List.mem_cons.mp (ih (f a x)) with h' | h'
    · rw [h']
      rcases hf a x with h | h
      · rw [h]; exact List.mem_cons_self a (x :: l)
      · rw [h]; exact List.mem_cons_of_mem a (List.mem_cons_self x l)
    · exact List.mem_cons_of_mem a (List.mem_cons_of_mem x h')

/-- Python's `max(..., key=rotation)` picks an element of the list. -/
theorem maxByRot_mem (a : AEvent) (rest : List AEvent) :
    maxByRot a rest ∈ a :: rest := by
  unfold maxByRot
  exact foldl_pick_mem _ (fun b x => by split <;> simp) rest a

/-- Every event of the Linear Manipulation Detector is built over a window
`[a, b]` of trajectory indices, with the duration recomputed from the two
window timestamps. -/
theorem linearScan_window (n : ℕ) (pos vel : ℕ → ℚ × ℚ × ℚ)
    (speed opn ts : ℕ → ℚ) :
    ∀ fuel i, ∀ e ∈ linearScan n pos vel speed opn ts fuel i,
      ∃ a b : ℕ, a ≤ b ∧ b ≤ n - 1 ∧ e.start_time = ts a ∧ e.end_time = ts b ∧
        e.duration = ts b - ts a := by
  intro fuel
  induction fuel with
  | zero => intro i e he; simp [linearScan] at he
  | succ fuel ih =>
    intro i e he
    simp only [linearScan] at he
    split at he
    case isFalse => simp at he
    case isTrue hi =>
      have hplace : ∀ i'', i'' ≤ n - 1 →
          e ∈ placeBranch n vel opn ts (linearScan n pos vel speed opn ts fuel) i'' →
          ∃ a b : ℕ, a ≤ b ∧ b ≤ n - 1 ∧ e.start_time = ts a ∧
            e.end_time = ts b ∧ e.duration = ts b - ts a := by
        intro i'' hle hm
        rcases mem_placeBranch hm with ⟨hwin, rfl⟩ | ⟨k, _, hk⟩
        · exact ⟨i'', min (placeRun n vel n i'' + 10) (n - 1),
            Nat.le_min.mpr
              ⟨le_trans (placeRun_ge n vel n i'') (Nat.le_add_right _ 10), hle⟩,
            Nat.min_le_right _ _, rfl, rfl, rfl⟩
        · exact ih k e hk
      have hslideB : e ∈ slideBranch n vel speed opn ts
          (linearScan n pos vel speed opn ts fuel) i →
          ∃ a b : ℕ, a ≤ b ∧ b ≤ n - 1 ∧ e.start_time = ts a ∧
            e.end_time = ts b ∧ e.duration = ts b - ts a := by
        intro hm
        rcases mem_slideBranch hm with ⟨hg, rfl⟩ | ⟨k, hk, _⟩ | hlift
        · exact ⟨i, min (slideRun n vel n i) (n - 1),
            Nat.le_min.mpr ⟨slideRun_ge n vel n i, by omega⟩,
            Nat.min_le_right _ _, rfl, rfl, rfl⟩
        · exact ih k e hk
        · rcases mem_liftBranch hlift with ⟨hg, rfl⟩ | ⟨k, hk, _⟩ | ⟨i'', hpm, hcase⟩
          · exact ⟨i, min (liftRun n vel n i) (n - 1),
              Nat.le_min.mpr ⟨liftRun_ge n vel n i, by omega⟩,
              Nat.min_le_right _ _, rfl, rfl, rfl⟩
          · exact ih k e hk
          · rcases hcase with rfl | ⟨heq, hgap⟩
            · exact hplace i'' (by omega) hpm
            · subst heq
              rcases le_or_lt (liftRun n vel n i) (n - 1) with hle | hlt
              · exact hplace _ hle hpm
              · rw [Nat.min_eq_right hlt.le] at hgap
                exact absurd hgap (by omega)
      split at he
      case isTrue hcond =>
        split at he
        case isTrue hemit =>
          rcases List.mem_cons.mp he with rfl | he
          · exact ⟨i, min (ppRun n vel speed i n i) (n - 1),
              Nat.le_min.mpr ⟨ppRun_ge n vel speed i n i, by omega⟩,
              Nat.min_le_right _ _, rfl, rfl, rfl⟩
          · exact ih _ e he
        case isFalse => exact hslideB he
      case isFalse => exact hslideB he

/-- Every twist event is built over a window `[a, b]` of valid-subsequence
indices, with the duration recomputed from the two window timestamps. -/
theorem twistScan_window (T : ℚ) (m : ℕ) (roll rate opn ts : ℕ → ℚ)
    (pos : ℕ → ℚ × ℚ × ℚ) (frames : ℕ → Frame) (vIdx : ℕ → ℕ) :
    ∀ fuel i, ∀ e ∈ twistScan T m roll rate opn ts pos frames vIdx fuel i,
      ∃ a b : ℕ, a ≤ b ∧ b ≤ m - 1 ∧ e.start_time = ts a ∧ e.end_time = ts b ∧
        e.duration = ts b - ts a := by
  intro fuel
  induction fuel with
  | zero => intro i e he; simp [twistScan] at he
  | succ fuel ih =>
    intro i e he
    simp only [twistScan] at he
    split at he
    case isFalse => simp at he
    case isTrue hi =>
      split at he
      case isTrue htrig =>
        split at he
        case isTrue hacc =>
          rcases List.mem_cons.mp he with rfl | he
          · exact ⟨i, min (i + twistRunLen T m rate m i) (m - 1),
              Nat.le_min.mpr ⟨Nat.le_add_right _ _, by omega⟩,
              Nat.min_le_right _ _, rfl, rfl, rfl⟩
          · exact ih _ e he
        case isFalse => exact ih _ e he
      case isFalse => exact ih _ e he

/-- Every pour event is built over a window `[a, b]` of valid-subsequence
indices, with the duration recomputed from the two window timestamps. -/
theorem pourScan_window (m : ℕ) (pitch ts : ℕ → ℚ) (pos : ℕ → ℚ × ℚ × ℚ)
    (frames : ℕ → Frame) (vIdx : ℕ → ℕ) :
    ∀ fuel i, ∀ e ∈ pourScan m pitch ts pos frames vIdx fuel i,
      ∃ a b : ℕ, a ≤ b ∧ b ≤ m - 1 ∧ e.start_time = ts a ∧ e.end_time = ts b ∧
        e.duration = ts b - ts a := by
  intro fuel
  induction fuel with
  | zero => intro i e he; simp [pourScan] at he
  | succ fuel ih =>
    intro i e he
    simp only [pourScan] at he
    split at he
    case isFalse => simp at he
    case isTrue hi =>
      split at he
      case isTrue htrig =>
        split at he
        case isTrue hacc =>
          rcases List.mem_cons.mp he with rfl | he
          · exact ⟨i, min (i + pourRunLen m pitch m i) (m - 1),
              Nat.le_min.mpr ⟨Nat.le_add_right _ _, by omega⟩,
              Nat.min_le_right _ _, rfl, rfl, rfl⟩
          · exact ih _ e he
        case isFalse => exact ih _ e he
      case isFalse => exact ih _ e he

/-- Elements read off a strictly sorted list respect the index order. -/
theorem getD_mono_of_pairwise_lt {l : List ℕ} (h : l.Pairwise (· < ·))
    {a b : ℕ} (hab : a ≤ b) (hb : b < l.length) : l.getD a 0 ≤ l.getD b 0 := by
  rcases Nat.lt_or_ge a b with hlt | hge
  · have ha : a < l.length := lt_trans hlt hb
    rw [List.getD_eq_getElem l 0 ha, List.getD_eq_getElem l 0 hb]
    exact le_of_lt (List.pairwise_iff_getElem.mp h a b ha hb hlt)
  · have : a = b := le_antisymm hab hge
    rw [this]

/-- The valid-index list of `detect_rotation_actions` is strictly sorted
with all entries below the orientation count. -/
theorem valid_pairwise_lt (orientations : List (Option Orient)) :
    ((List.range orientations.length).filter
      (fun i => (orientations.getD i none).isSome)).Pairwise (· < ·) :=
  List.Pairwise.sublist (List.filter_sublist _) (List.pairwise_lt_range _)

theorem valid_mem_lt (orientations : List (Option Orient)) {x : ℕ}
    (hx : x ∈ (List.range orientations.length).filter
      (fun i => (orientations.getD i none).isSome)) :
    x < orientations.length :=
  List.mem_range.mp (List.mem_of_mem_filter hx)

/-- Every event of the Rotational Manipulation Detector is built over a
window `[A, B]` of global trajectory indices bounded by the orientation
count, with the duration recomputed from the two window timestamps. -/
theorem detect_rotation_window (T : ℚ) (positions : ℕ → ℚ × ℚ × ℚ)
    (openness timestamps : ℕ → ℚ) (orientations : List (Option Orient))
    (frames : ℕ → Frame) {n : ℕ} (hlen : orientations.length ≤ n) :
    ∀ e ∈ detect_rotation_actions T positions openness timestamps
      orientations frames,
      ∃ A B : ℕ, A ≤ B ∧ B ≤ n - 1 ∧ e.start_time = timestamps A ∧
        e.end_time = timestamps B ∧ e.duration = timestamps B - timestamps A := by
  intro e he
  simp only [detect_rotation_actions] at he
  split at he
  · cases he
  · split at he
    · cases he
    · rename_i hm
      set valid := (List.range orientations.length).filter
        (fun i => (orientations.getD i none).isSome) with hvalid
      have hmono : ∀ a b : ℕ, a ≤ b → b ≤ valid.length - 1 →
          valid.getD a 0 ≤ valid.getD b 0 ∧ valid.getD b 0 < orientations.length := by
        intro a b hab hb
        have hb' : b < valid.length := by omega
        refine ⟨getD_mono_of_pairwise_lt (valid_pairwise_lt orientations) hab hb', ?_⟩
        have : valid.getD b 0 ∈ valid := by
          rw [List.getD_eq_getElem valid 0 hb']
          exact List.getElem_mem hb'
        exact valid_mem_lt orientations this
      rcases List.mem_append.mp he with he | he
      · obtain ⟨a, b, hab, hbm, hst, hen, hdur⟩ :=
          twistScan_window T valid.length _ _ _ _ _ _ _ _ _ e he
        obtain ⟨hAB, hBlt⟩ := hmono a b hab hbm
        exact ⟨valid.getD a 0, valid.getD b 0, hAB, by omega, hst, hen, hdur⟩
      · obtain ⟨a, b, hab, hbm, hst, hen, hdur⟩ :=
          pourScan_window valid.length _ _ _ _ _ _ _ e he
        obtain ⟨hAB, hBlt⟩ := hmono a b hab hbm
        exact ⟨valid.getD a 0, valid.getD b 0, hAB, by omega, hst, hen, hdur⟩

/-- The first-pull search only emits a single `'open'` event over a window
`[a, b]` of period indices. -/
theorem findOpen_window (L : ℕ) (z s pt : ℕ → ℚ) (ctype : String) :
    ∀ fuel i0, ∀ e ∈ findOpen L z s pt ctype fuel i0,
      e.action = .copen ∧ 5 < L ∧
        ∃ a b : ℕ, a ≤ b ∧ b ≤ L - 1 ∧ e.start_time = pt a ∧
          e.end_time = pt b := by
  intro fuel
  induction fuel with
  | zero => intro i0 e he; simp [findOpen] at he
  | succ fuel ih =>
    intro i0 e he
    simp only [findOpen] at he
    split at he
    case isFalse => simp at he
    case isTrue hi =>
      split at he
      case isTrue htrig =>
        split at he
        case isTrue hdur =>
          rw [List.mem_singleton] at he
          subst he
          exact ⟨rfl, by omega,
            ⟨i0, min (i0 + openRunLen L z L i0) (L - 1),
              Nat.le_min.mpr ⟨Nat.le_add_right _ _, by omega⟩,
              Nat.min_le_right _ _, rfl, rfl⟩⟩
        case isFalse => exact ih _ e he
      case isFalse => exact ih _ e he

/-- The last-push search only emits a single `'close'` event over a window
`[a, b]` of period indices. -/
theorem findClose_window (L : ℕ) (z s pt : ℕ → ℚ) (ctype : String) :
    ∀ fuel i0, ∀ e ∈ findClose L z s pt ctype fuel i0,
      e.action = .cclose ∧ 5 < L ∧
        ∃ a b : ℕ, a ≤ b ∧ b ≤ L - 1 ∧ e.start_time = pt a ∧
          e.end_time = pt b := by
  intro fuel
  induction fuel with
  | zero => intro i0 e he; simp [findClose] at he
  | succ fuel ih =>
    intro i0 e he
    simp only [findClose] at he
    split at he
    case isFalse => simp at he
    case isTrue hi =>
      split at he
      case isTrue htrig =>
        split at he
        case isTrue hdur =>
          rw [List.mem_singleton] at he
          subst he
          exact ⟨rfl, by omega,
            ⟨i0 - closeRunLen z i0, i0, Nat.sub_le _ _, by omega, rfl, rfl⟩⟩
        case isFalse => exact ih _ e he
      case isFalse => exact ih _ e he

/-- The first index minimising the distance stays below `n` when `n > 0`. -/
theorem argminAbsDist_lt (n : ℕ) (t : ℕ → ℚ) (v : ℚ) (hn : 0 < n) :
    argminAbsDist n t v < n := by
  unfold argminAbsDist
  have h := foldl_pick_mem
    (fun best i => if |t i - v| < |t best - v| then i else best)
    (fun b x => by dsimp only; split <;> simp) (List.range n) 0
  rcases List.mem_cons.mp h with h' | h'
  · rw [h']; exact hn
  · exact List.mem_range.mp h'

/-- Every container-interaction event is an `'open'` or a `'close'` built
over a window `[a, b]` of global trajectory indices. -/
theorem container_window (n : ℕ) (vel : ℕ → ℚ × ℚ × ℚ) (speed ts : ℕ → ℚ)
    (containers : List ContainerDet) :
    ∀ e ∈ detect_container_interactions n vel speed ts containers,
      (e.action = .copen ∨ e.action = .cclose) ∧
        ∃ a b : ℕ, a ≤ b ∧ b ≤ n - 1 ∧ e.start_time = ts a ∧
          e.end_time = ts b := by
  intro e he
  cases containers with
  | nil => cases he
  | cons c0 cRest =>
    simp only [detect_container_interactions] at he
    set stime := listMin c0.timestamp (cRest.map (·.timestamp)) with hstime
    set etime := listMax c0.timestamp (cRest.map (·.timestamp)) with hetime
    set s := argminAbsDist n ts stime with hs
    set en := argminAbsDist n ts etime with hen
    have hender : 0 < n → en < n := argminAbsDist_lt n ts etime
    rcases List.mem_append.mp he with he | he
    · obtain ⟨hact, hL, a, b, hab, hb, hst, hend⟩ :=
        findOpen_window (en + 1 - s) _ _ _ _ _ _ e he
      refine ⟨Or.inl hact, s + a, s + b, by omega, ?_, hst, hend⟩
      have hnpos : 0 < n := by
        by_contra hzero
        have hn0 : n = 0 := by omega
        have hs0 : s = 0 := by rw [hs, hn0]; rfl
        have hen0 : en = 0 := by rw [hen, hn0]; rfl
        omega
      have := hender hnpos
      omega
    · obtain ⟨hact, hL, a, b, hab, hb, hst, hend⟩ :=
        findClose_window (en + 1 - s) _ _ _ _ _ _ e he
      refine ⟨Or.inr hact, s + a, s + b, by omega, ?_, hst, hend⟩
      have hnpos : 0 < n := by
        by_contra hzero
        have hn0 : n = 0 := by omega
        have hs0 : s = 0 := by rw [hs, hn0]; rfl
        have hen0 : en = 0 := by rw [hen, hn0]; rfl
        omega
      have := hender hnpos
      omega

/-- Membership transfer through a named filter result. -/
theorem mem_of_eq_filter {p : AEvent → Bool} {l res : List AEvent}
    (h : List.filter p l = res) {x : AEvent} (hx : x ∈ res) : x ∈ l := by
  subst h
  exact List.mem_of_mem_filter hx

/-- The primary-twist filter only keeps events of its input list. -/
theorem mem_filter_primary_twists {e : AEvent} {l : List AEvent}
    (he : e ∈ filter_primary_twists l) : e ∈ l := by
  unfold filter_primary_twists at he
  rw [mem_sortByStart] at he
  rcases List.mem_append.mp he with he | he
  · rcases List.mem_append.mp he with he | he
    · rcases hto : l.filter (fun a => a.action = AKind.twist_open) with _ | ⟨a, rest⟩
      · rw [hto] at he; cases he
      · rw [hto] at he
        rw [List.mem_singleton] at he
        subst he
        split
        · exact mem_of_eq_filter hto (List.mem_cons_self a rest)
        · exact mem_of_eq_filter hto (maxByRot_mem a rest)
    · rcases htc : l.filter (fun a => a.action = AKind.twist_close) with _ | ⟨a, rest⟩
      · rw [htc] at he; cases he
      · rw [htc] at he
        rw [List.mem_singleton] at he
        subst he
        split
        · exact mem_of_eq_filter htc (List.getLast_mem (by simp))
        · exact mem_of_eq_filter htc (maxByRot_mem a rest)
  · exact List.mem_of_mem_filter he

/-! ## C7: the stored duration field versus the two timestamps -/

/-- 20 frames, each showing a confident refrigerator, timestamped at 10 fps
spacing 0.1 s — deliberately not the 30 fps the container-interaction
detector's `duration += 1/30` counting assumes. -/
def c7Frames : List Frame := (List.range 20).map (fun k =>
  { timestamp := (k : ℚ)/10, objects_detected := true,
    objects := [{ cls := "refrigerator", confidence := some (9/10) }] })

/-- C7 trajectory positions: steady forward depth motion. -/
def c7Pos : ℕ → ℚ × ℚ × ℚ := fun k => (0, 0, -(k : ℚ)/10)

/-- C7 trajectory velocities: constant forward depth velocity. -/
def c7Vel : ℕ → ℚ × ℚ × ℚ := fun _ => (0, 0, -3/5)

/-- C7, counterexample: the final pipeline output (after merging) contains a
container `'open'` event whose stored `duration` (2/3 s, counted as
detection frames times 1/30 s) differs from `end_time - start_time`
(1.9 s): the container-interaction detector computes `duration`
independently of the two timestamps.  (The trajectory carries no
orientation data, so the rotation-rate parameter — instantiated at 2 — is
never consulted.) -/
theorem C7_counterexample :
    ∃ e ∈ detect_actions 2 20 c7Pos c7Vel (fun _ => 3/2) (fun _ => 1)
      (fun k => (k : ℚ)/10) c7Frames,
      e.action = .copen ∧ e.duration ≠ e.end_time - e.start_time := by
  decide

/-- C7 (amended): every event of the final pipeline output that is *not* a
container open/close satisfies `duration = end_time - start_time`; the
linear and rotational detectors always store the difference of the two
window timestamps, and merging recomputes the duration from the two
timestamps of the merged accumulator.  (Container open/close events instead
carry a frame-count-based duration, see the counterexample.) -/
theorem C7_duration (T : ℚ) (n : ℕ) (pos vel : ℕ → ℚ × ℚ × ℚ)
    (speed opn ts : ℕ → ℚ) (frames : List Frame) (e : AEvent)
    (he : e ∈ detect_actions T n pos vel speed opn ts frames)
    (h1 : e.action ≠ .copen) (h2 : e.action ≠ .cclose) :
    e.duration = e.end_time - e.start_time := by
  simp only [detect_actions] at he
  have he' := mem_filter_primary_twists he
  refine merge_pres
    (fun x => x.action ≠ .copen → x.action ≠ .cclose →
      x.duration = x.end_time - x.start_time)
    ?_ _ ?_ (sortByStart_sorted _) e he' h1 h2
  · intro cur b _ _ _ _ _
    rfl
  · intro x hx
    rw [mem_sortByStart] at hx
    rcases List.mem_append.mp hx with hx | hx
    · rcases List.mem_append.mp hx with hx | hx
      · split at hx
        · cases hx
        · obtain ⟨hkind, _⟩ := container_window n vel speed ts _ x hx
          intro hc1 hc2
          rcases hkind with h | h
          · exact absurd h hc1
          · exact absurd h hc2
      · obtain ⟨A, B, _, _, hst, hen, hdur⟩ :=
          detect_rotation_window T pos opn ts (extract_orientations frames)
            (fun i => frames.getD i default)
            (le_refl (extract_orientations frames).length) x hx
        intro _ _
        rw [hdur, hst, hen]
    · obtain ⟨a, b, _, _, hst, hen, hdur⟩ :=
        linearScan_window n pos vel speed opn ts n 0 x hx
      intro _ _
      rw [hdur, hst, hen]

/-- Witness for `C7_duration`: the push event of the C7 pipeline run does
satisfy the recomputation invariant. -/
theorem C7_duration_witness :
    ({ action := .push, obj := "unknown", start_time := 0, end_time := 19/10,
       duration := 19/10, confidence := 3/4,
       net_displacement := some (-(19/10)) } : AEvent).duration =
      ({ action := .push, obj := "unknown", start_time := 0, end_time := 19/10,
         duration := 19/10, confidence := 3/4,
         net_displacement := some (-(19/10)) } : AEvent).end_time -
      ({ action := .push, obj := "unknown", start_time := 0, end_time := 19/10,
         duration := 19/10, confidence := 3/4,
         net_displacement := some (-(19/10)) } : AEvent).start_time :=
  C7_duration 2 20 c7Pos c7Vel (fun _ => 3/2) (fun _ => 1)
    (fun k => (k : ℚ)/10) c7Frames _ (by decide) (by decide) (by decide)

/-! ## C9: output events stay inside the trajectory's time range -/

/-- C9: for a trajectory with strictly increasing timestamps (and the frame
list aligned with the timestep arrays), every event of the final pipeline
output satisfies `start_time ≤ end_time`, with both timestamps inside the
trajectory's first and last timestamps. -/
theorem C9_time_bounds (T : ℚ) (n : ℕ) (pos vel : ℕ → ℚ × ℚ × ℚ)
    (speed opn ts : ℕ → ℚ) (frames : List Frame)
    (hts : ∀ a b : ℕ, a < b → b ≤ n - 1 → ts a < ts b)
    (hflen : frames.length = n) :
    ∀ e ∈ detect_actions T n pos vel speed opn ts frames,
      e.start_time ≤ e.end_time ∧ ts 0 ≤ e.start_time ∧
        e.end_time ≤ ts (n - 1) := by
  have hmono : ∀ a b : ℕ, a ≤ b → b ≤ n - 1 → ts a ≤ ts b := by
    intro a b hab hb
    rcases Nat.lt_or_ge a b with h | h
    · exact le_of_lt (hts a b h hb)
    · rw [le_antisymm hab h]
  intro e he
  simp only [detect_actions] at he
  have he' := mem_filter_primary_twists he
  have hmain := merge_pres
    (fun x => ts 0 ≤ x.start_time ∧ x.start_time ≤ x.end_time ∧
      x.end_time ≤ ts (n - 1))
    ?_ _ ?_ (sortByStart_sorted _) e he'
  · exact ⟨hmain.2.1, hmain.1, hmain.2.2⟩
  · intro cur b hc hb hle
    exact ⟨hc.1, le_trans hle hb.2.1, hb.2.2⟩
  · intro x hx
    rw [mem_sortByStart] at hx
    have hwin : (∃ a b : ℕ, a ≤ b ∧ b ≤ n - 1 ∧ x.start_time = ts a ∧
        x.end_time = ts b) →
        ts 0 ≤ x.start_time ∧ x.start_time ≤ x.end_time ∧
          x.end_time ≤ ts (n - 1) := by
      rintro ⟨a, b, hab, hb, hst, hen⟩
      refine ⟨?_, ?_, ?_⟩
      · rw [hst]; exact hmono 0 a (Nat.zero_le a) (le_trans hab hb)
      · rw [hst, hen]; exact hmono a b hab hb
      · rw [hen]; exact hmono b (n - 1) hb (le_refl _)
    rcases List.mem_append.mp hx with hx | hx
    · rcases List.mem_append.mp hx with hx | hx
      · split at hx
        · cases hx
        · obtain ⟨_, a, b, hab, hb, hst, hen⟩ :=
            container_window n vel speed ts _ x hx
          exact hwin ⟨a, b, hab, hb, hst, hen⟩
      · obtain ⟨A, B, hAB, hB, hst, hen, _⟩ :=
          detect_rotation_window T pos opn ts (extract_orientations frames)
            (fun i => frames.getD i default)
            (le_of_eq (by rw [extract_orientations, List.length_map, hflen]))
            x hx
        exact hwin ⟨A, B, hAB, hB, hst, hen⟩
    · obtain ⟨a, b, hab, hb, hst, hen, _⟩ :=
        linearScan_window n pos vel speed opn ts n 0 x hx
      exact hwin ⟨a, b, hab, hb, hst, hen⟩

/-- The container `'open'` event found in the C7/C9 witness pipeline run. -/
def c7OpenEv : AEvent :=
  { action := .copen, obj := "refrigerator", start_time := 0,
    end_time := 19/10, duration := 2/3, confidence := 9/10 }

/-- Witness for `C9_time_bounds`: the open event emitted on the concrete
20-sample trajectory (strictly increasing timestamps at 0.1 s spacing) lies
inside the trajectory's time range. -/
theorem C9_time_bounds_witness :
    c7OpenEv.start_time ≤ c7OpenEv.end_time ∧
      ((0 : ℕ) : ℚ)/10 ≤ c7OpenEv.start_time ∧
      c7OpenEv.end_time ≤ ((20 - 1 : ℕ) : ℚ)/10 :=
  C9_time_bounds 2 20 c7Pos c7Vel (fun _ => 3/2) (fun _ => 1)
    (fun k => (k : ℚ)/10) c7Frames
    (fun a b h _ => by
      have h' : (a : ℚ) < (b : ℚ) := by exact_mod_cast h
      linarith)
    (by decide) c7OpenEv (by decide)

/-- Witness for `C6_pushpull` on a 12-sample forward-push trajectory. -/
theorem C6_pushpull_witness :
    ∃ a b : ℕ, a ≤ b ∧ b ≤ 12 - 1 ∧
      c6Ev.start_time = ((fun k => (k : ℚ)/10) : ℕ → ℚ) a ∧
      c6Ev.end_time = ((fun k => (k : ℚ)/10) : ℕ → ℚ) b ∧
      c6Ev.duration = ((fun k => (k : ℚ)/10) : ℕ → ℚ) b
        - ((fun k => (k : ℚ)/10) : ℕ → ℚ) a ∧
      c6Ev.net_displacement = some ((c6Pos b).2.2 - (c6Pos a).2.2) ∧
      c6Ev.duration > 1/2 ∧ |(c6Pos b).2.2 - (c6Pos a).2.2| > 1/10 ∧
      (c6Ev.action = .push ↔ (c6Pos b).2.2 - (c6Pos a).2.2 < 0) :=
  C6_pushpull 12 c6Pos c6Vel (fun _ => 3/2) (fun _ => 1) (fun k => (k : ℚ)/10)
    c6Ev (by decide) (Or.inl rfl)
